import Mathlib

/-!
# Web-Wrapper native helpers: URL validation, domain extraction, normalisation, resize

A shallow embedding of `app/src/main/cpp/url_validator.cpp` and of
`resizeImageNative` of `app/src/main/cpp/image_processor.cpp`.

* A `std::string` is a `List Char`: one list element per C++ `char`.
* A `jstring` argument is an `Option (List Char)`; `none` is the Java `null`
  reference (`nullptr` on the native side).
* A `size_t` that may hold `std::string::npos` (the result of a `find`
  family member) is an `Option Nat`; `none` is `npos = 2^64 - 1`.
* `std::string::erase` and `std::string::substr` throw `std::out_of_range`
  when the position exceeds the size; the embedding returns
  `Except.error CppError.out_of_range` there.
* `GetStringUTFChars` is taken to succeed on a non-null `jstring`, and
  `NewStringUTF` to return the string it is given.
* `std::regex_match` is a backtracking matcher over the pattern of line 38;
  `regex_constants::icase` compares literals after `tolower`.
* The `LOGI` calls only write a diagnostic line and are left out.
-/

namespace WebWrapper

/-! ## The `std::string` members used by the source -/

/-- The C++ exceptions the string members can raise. -/
inductive CppError where
  | out_of_range
  deriving DecidableEq, Repr

/-- Scan for `pat` from the front of the list; `i` is the index of the head. -/
def findAux (pat : List Char) : List Char → Nat → Option Nat
  | [], i => if pat.isEmpty then some i else none
  | c :: cs, i => if pat.isPrefixOf (c :: cs) then some i else findAux pat cs (i + 1)

/-- The member `s.find(pat, pos)`: the first index `i ≥ pos` at which `pat` occurs in `s`,
`none` (that is `npos`) when there is none or `pos > s.size()`. -/
def find (s pat : List Char) (pos : Nat) : Option Nat :=
  if pos ≤ s.length then findAux pat (s.drop pos) pos else none

/-- Scan for the first element outside `set`; `i` is the index of the head. -/
def firstNotOfAux (set : List Char) : List Char → Nat → Option Nat
  | [], _ => none
  | c :: cs, i => if set.contains c then firstNotOfAux set cs (i + 1) else some i

/-- The member `s.find_first_not_of(set)`. -/
def find_first_not_of (s set : List Char) : Option Nat :=
  firstNotOfAux set s 0

/-- The member `s.find_last_not_of(set)`: the largest index whose character is outside
`set`, found as the first such index of the reversed string. -/
def find_last_not_of (s set : List Char) : Option Nat :=
  match firstNotOfAux set s.reverse 0 with
  | none => none
  | some j => some (s.length - 1 - j)

/-- The sum `p + 1` in `size_t` arithmetic for a `find` result `p`.  `npos + 1` is
`(2^64 - 1 + 1) mod 2^64 = 0`; a found index is below the size of the string,
so its successor does not wrap. -/
def sizeSucc : Option Nat → Nat
  | none => (2 ^ 64 - 1 + 1) % 2 ^ 64
  | some i => i + 1

/-- The member `s.erase(pos, len)`; `len = none` is the default argument `npos`.
Throws when `pos > s.size()`, otherwise removes `min(len, size - pos)`
characters starting at `pos`. -/
def erase (s : List Char) (pos : Nat) (len : Option Nat) : Except CppError (List Char) :=
  if pos ≤ s.length then
    let n := match len with
      | none => s.length - pos
      | some n => min n (s.length - pos)
    Except.ok (s.take pos ++ s.drop (pos + n))
  else Except.error CppError.out_of_range

/-- The member `s.substr(pos, len)`; `len = none` is the default argument `npos`.
Throws when `pos > s.size()`. -/
def substr (s : List Char) (pos : Nat) (len : Option Nat) : Except CppError (List Char) :=
  if pos ≤ s.length then
    match len with
    | none => Except.ok (s.drop pos)
    | some n => Except.ok ((s.drop pos).take n)
  else Except.error CppError.out_of_range

/-- The function `::tolower` of `<cctype>` in the "C" locale: `A`..`Z` go to `a`..`z`,
every other character is returned unchanged. -/
def tolower (c : Char) : Char :=
  if 'A' ≤ c ∧ c ≤ 'Z' then Char.ofNat (c.toNat + 32) else c

/-- The character set `" \t\n\r"` handed to `find_first_not_of` and
`find_last_not_of` by `normalizeUrlNative`. -/
def trimChars : List Char := " \t\n\r".toList

/-! ## `extractDomainNative` -/

/-- The function `Java_com_nan_webwrapper_NativeHelper_extractDomainNative`
(url_validator.cpp, lines 62-98). -/
def Java_com_nan_webwrapper_NativeHelper_extractDomainNative
    (url : Option (List Char)) : Except CppError (Option (List Char)) :=
  match url with
  | none => Except.ok none
  | some urlString =>
    -- size_t protocolEnd = urlString.find("://");
    (match find urlString "://".toList 0 with
      | some protocolEnd => substr urlString (protocolEnd + 3) none
      | none => Except.ok urlString) >>= fun urlString =>
    -- size_t pathStart = urlString.find('/');
    (match find urlString ['/'] 0 with
      | some pathStart => substr urlString 0 (some pathStart)
      | none => Except.ok urlString) >>= fun domain =>
    -- size_t portStart = domain.find(':');
    (match find domain [':'] 0 with
      | some portStart => substr domain 0 (some portStart)
      | none => Except.ok domain) >>= fun domain =>
    Except.ok (some domain)

/-! ## `normalizeUrlNative` -/

/-- The lower-casing block of `normalizeUrlNative` (lines 130-146): split at
the first `"://"` and the next `'/'`, lower-case what lies between.
`pathStart` is found from position `protocolEnd + 3` on, so the `size_t`
difference `pathStart - protocolEnd - 3` does not wrap. -/
def lowercaseDomain (urlString : List Char) : Except CppError (List Char) :=
  match find urlString "://".toList 0 with
  | none => Except.ok urlString
  | some protocolEnd =>
    match find urlString ['/'] (protocolEnd + 3) with
    | some pathStart =>
      substr urlString (protocolEnd + 3) (some (pathStart - protocolEnd - 3)) >>= fun domain =>
      substr urlString pathStart none >>= fun path =>
      substr urlString 0 (some (protocolEnd + 3)) >>= fun scheme =>
      Except.ok (scheme ++ domain.map tolower ++ path)
    | none =>
      substr urlString (protocolEnd + 3) none >>= fun domain =>
      substr urlString 0 (some (protocolEnd + 3)) >>= fun scheme =>
      Except.ok (scheme ++ domain.map tolower)

/-- The function `Java_com_nan_webwrapper_NativeHelper_normalizeUrlNative`
(url_validator.cpp, lines 103-150). -/
def Java_com_nan_webwrapper_NativeHelper_normalizeUrlNative
    (url : Option (List Char)) : Except CppError (Option (List Char)) :=
  match url with
  | none => Except.ok none
  | some urlString =>
    if urlString.isEmpty then Except.ok (some [])
    else
      -- urlString.erase(0, urlString.find_first_not_of(" \t\n\r"));
      erase urlString 0 (find_first_not_of urlString trimChars) >>= fun urlString =>
      -- urlString.erase(urlString.find_last_not_of(" \t\n\r") + 1);
      erase urlString (sizeSucc (find_last_not_of urlString trimChars)) none
        >>= fun urlString =>
      -- if (urlString.find("://") == npos) urlString = "https://" + urlString;
      let urlString :=
        if find urlString "://".toList 0 = none then "https://".toList ++ urlString
        else urlString
      lowercaseDomain urlString >>= fun urlString =>
      Except.ok (some urlString)

/-! ## `std::regex` (ECMAScript grammar, `icase`) -/

/-- The regular expressions the URL pattern is built from.  `cls p` is a
one-character matcher (a literal, a bracket expression or `.`). -/
inductive Rx where
  | eps
  | cls (p : Char → Bool)
  | seq (a b : Rx)
  | alt (a b : Rx)
  | star (a : Rx)

namespace Rx

/-- A literal character under `std::regex_constants::icase`: both sides are
compared after `tolower` (`regex_traits::translate_nocase`). -/
def lit (c : Char) : Rx := cls fun x => tolower x == tolower c

/-- The concatenation of a list of expressions. -/
def seqs : List Rx → Rx
  | [] => eps
  | [a] => a
  | a :: as => seq a (seqs as)

/-- The quantifier `a?` (greedy). -/
def opt (a : Rx) : Rx := alt a eps

/-- The quantifier `a{n}`. -/
def pow (a : Rx) : Nat → Rx
  | 0 => eps
  | n + 1 => seq a (pow a n)

/-- The quantifier `a{0,n}` (greedy). -/
def upTo (a : Rx) : Nat → Rx
  | 0 => eps
  | n + 1 => opt (seq a (upTo a n))

/-- The quantifier `a{lo,hi}`. -/
def rep (a : Rx) (lo hi : Nat) : Rx := seq (pow a lo) (upTo a (hi - lo))

/-- The quantifier `a{lo,}`. -/
def atLeast (a : Rx) (lo : Nat) : Rx := seq (pow a lo) (star a)

end Rx

/-- The greedy loop of `a*`: `ma` matches one iteration and hands the rest of
the input to its continuation; an iteration that consumes nothing is
rejected, as in the ECMAScript RepeatMatcher.  `fuel` bounds the number of
iterations and is the length of the input at the call. -/
def matchStar (ma : (List Char → Bool) → List Char → Bool) (k : List Char → Bool) :
    Nat → List Char → Bool
  | 0, s => k s
  | fuel + 1, s =>
    ma (fun rest => decide (rest.length < s.length) && matchStar ma k fuel rest) s || k s

/-- The backtracking matcher: `matchRx r k s` holds when some prefix of `s`
matches `r` and the continuation `k` accepts what is left. -/
def matchRx : Rx → (List Char → Bool) → List Char → Bool
  | Rx.eps, k, s => k s
  | Rx.cls _, _, [] => false
  | Rx.cls p, k, c :: s => p c && k s
  | Rx.seq a b, k, s => matchRx a (matchRx b k) s
  | Rx.alt a b, k, s => matchRx a k s || matchRx b k s
  | Rx.star a, k, s => matchStar (matchRx a) k s.length s

/-- The call `std::regex_match(s, r)`: the whole of `s` matches `r`. -/
def regex_match (s : List Char) (r : Rx) : Bool :=
  matchRx r (fun rest => rest.isEmpty) s

/-- The class `\s`: `isspace` in the "C" locale. -/
def isSpace (c : Char) : Bool :=
  c == ' ' || c == '\t' || c == '\n' || c == '\x0b' || c == '\x0c' || c == '\r'

/-- The class `[a-zA-Z]`. -/
def isAlpha (c : Char) : Bool :=
  ('a' ≤ c && c ≤ 'z') || ('A' ≤ c && c ≤ 'Z')

/-- The class `[a-zA-Z0-9]`. -/
def isAlnum (c : Char) : Bool :=
  ('a' ≤ c && c ≤ 'z') || ('A' ≤ c && c ≤ 'Z') || ('0' ≤ c && c ≤ '9')

/-- The class `[a-zA-Z0-9-]`. -/
def isAlnumHyphen (c : Char) : Bool :=
  ('a' ≤ c && c ≤ 'z') || ('A' ≤ c && c ≤ 'Z') || ('0' ≤ c && c ≤ '9') || c == '-'

/-- The class `[^\s/$.?#]`. -/
def isHostStart (c : Char) : Bool :=
  !(isSpace c || c == '/' || c == '$' || c == '.' || c == '?' || c == '#')

/-- The class `[^\s]`. -/
def isNotSpace (c : Char) : Bool := !isSpace c

/-- The atom `.`: any character but the line terminators `\n` and `\r`. -/
def isNotNewline (c : Char) : Bool := !(c == '\n' || c == '\r')

/-- First alternative of the pattern: `^https?://[^\s/$.?#].[^\s]*$`. -/
def schemePattern : Rx :=
  Rx.seqs [Rx.lit 'h', Rx.lit 't', Rx.lit 't', Rx.lit 'p', Rx.opt (Rx.lit 's'),
    Rx.lit ':', Rx.lit '/', Rx.lit '/',
    Rx.cls isHostStart, Rx.cls isNotNewline, Rx.star (Rx.cls isNotSpace)]

/-- Second alternative of the pattern:
`^[a-zA-Z0-9][a-zA-Z0-9-]{1,61}[a-zA-Z0-9]?\.[a-zA-Z]{2,}(/.*)?$`. -/
def domainPattern : Rx :=
  Rx.seqs [Rx.cls isAlnum, Rx.rep (Rx.cls isAlnumHyphen) 1 61, Rx.opt (Rx.cls isAlnum),
    Rx.lit '.', Rx.atLeast (Rx.cls isAlpha) 2,
    Rx.opt (Rx.seq (Rx.lit '/') (Rx.star (Rx.cls isNotNewline)))]

/-- The `urlPattern` of `validateUrlNative` (lines 37-40), compiled with
`std::regex_constants::icase`. -/
def urlPattern : Rx := Rx.alt schemePattern domainPattern

/-! ## `validateUrlNative` -/

/-- The function `Java_com_nan_webwrapper_NativeHelper_validateUrlNative`
(url_validator.cpp, lines 17-57). -/
def Java_com_nan_webwrapper_NativeHelper_validateUrlNative
    (url : Option (List Char)) : Bool :=
  match url with
  | none => false
  | some urlString =>
    if urlString.isEmpty then false
    else
      let isValid := regex_match urlString urlPattern
      if !isValid then
        if find urlString "http://".toList 0 = some 0 ||
            find urlString "https://".toList 0 = some 0 ||
            find urlString "file://".toList 0 = some 0 ||
            find urlString "ftp://".toList 0 = some 0 then true
        else isValid
      else isValid

/-! ## `resizeImageNative` (image_processor.cpp)

A bitmap object is what `AndroidBitmap_getInfo` and `AndroidBitmap_lockPixels`
answer for it, with its locked pixel memory read as a list of 32-bit words.
The source and the destination are distinct objects.  Signed overflow,
division by zero and an access outside the pixel memory are undefined
behaviour in C++; the embedding answers with a `Fault` there. -/

/-- The undefined behaviour the pixel loop can run into. -/
inductive Fault where
  | signed_overflow
  | division_by_zero
  | out_of_bounds
  deriving DecidableEq, Repr

/-- The constant `ANDROID_BITMAP_RESULT_SUCCESS` of `<android/bitmap.h>`. -/
def ANDROID_BITMAP_RESULT_SUCCESS : Int := 0

/-- The constant `ANDROID_BITMAP_FORMAT_RGBA_8888` of `<android/bitmap.h>`. -/
def ANDROID_BITMAP_FORMAT_RGBA_8888 : Int := 1

/-- The constant `ANDROID_BITMAP_FORMAT_RGB_565` of `<android/bitmap.h>`. -/
def ANDROID_BITMAP_FORMAT_RGB_565 : Int := 4

/-- The fields of `AndroidBitmapInfo` the source reads: `uint32_t width`,
`uint32_t height`, `int32_t format`. -/
structure AndroidBitmapInfo where
  width : Nat
  height : Nat
  format : Int

/-- A `jobject` bitmap as the native side sees it. -/
structure Bitmap where
  getInfoResult : Int
  info : AndroidBitmapInfo
  lockPixelsResult : Int
  pixels : List Nat

/-- The conversion `int v = w` of a `uint32_t`: the value modulo `2^32`, read
as a two's complement `int`. -/
def toInt (w : Nat) : Int :=
  if w % 2 ^ 32 < 2 ^ 31 then Int.ofNat (w % 2 ^ 32) else Int.ofNat (w % 2 ^ 32) - 2 ^ 32

/-- An `int` result: a value outside `[-2^31, 2^31)` is a signed overflow. -/
def int32 (v : Int) : Except Fault Int :=
  if -(2 : Int) ^ 31 ≤ v ∧ v < (2 : Int) ^ 31 then Except.ok v
  else Except.error Fault.signed_overflow

/-- The product `a * b` of two `int`s. -/
def mulInt (a b : Int) : Except Fault Int := int32 (a * b)

/-- The sum `a + b` of two `int`s. -/
def addInt (a b : Int) : Except Fault Int := int32 (a + b)

/-- The quotient `a / b` of two `int`s, rounded towards zero. -/
def divInt (a b : Int) : Except Fault Int :=
  if b = 0 then Except.error Fault.division_by_zero else int32 (Int.tdiv a b)

/-- The read `buf[i]`. -/
def readPixel (buf : List Nat) (i : Int) : Except Fault Nat :=
  if 0 ≤ i then
    match buf[i.toNat]? with
    | some v => Except.ok v
    | none => Except.error Fault.out_of_bounds
  else Except.error Fault.out_of_bounds

/-- The write `buf[i] = v`. -/
def writePixel (buf : List Nat) (i : Int) (v : Nat) : Except Fault (List Nat) :=
  if 0 ≤ i ∧ i.toNat < buf.length then Except.ok (buf.set i.toNat v)
  else Except.error Fault.out_of_bounds

/-- The loop `for (int i = 0; i < n; i++) body`, threading the state. -/
def forLoop {σ : Type} (n : Int) (body : Int → σ → Except Fault σ) (s : σ) : Except Fault σ :=
  (List.range n.toNat).foldlM (fun s i => body (Int.ofNat i) s) s

/-- The body of the inner loop (lines 104-105):
`srcX = (x * srcWidth) / dstWidth; dst[y * dstWidth + x] = src[srcY * srcWidth + srcX]`. -/
def copyPixel (src : List Nat) (srcWidth dstWidth srcY y x : Int) (dst : List Nat) :
    Except Fault (List Nat) :=
  mulInt x srcWidth >>= fun p =>
  divInt p dstWidth >>= fun srcX =>
  mulInt srcY srcWidth >>= fun r =>
  addInt r srcX >>= fun ri =>
  readPixel src ri >>= fun v =>
  mulInt y dstWidth >>= fun w =>
  addInt w x >>= fun wi =>
  writePixel dst wi v

/-- The body of the outer loop (lines 102-106):
`srcY = (y * srcHeight) / dstHeight`, then the inner loop over `x`. -/
def resizeRow (src : List Nat) (srcWidth srcHeight dstWidth dstHeight y : Int)
    (dst : List Nat) : Except Fault (List Nat) :=
  mulInt y srcHeight >>= fun p =>
  divInt p dstHeight >>= fun srcY =>
  forLoop dstWidth (copyPixel src srcWidth dstWidth srcY y) dst

/-- The function `Java_com_nan_webwrapper_NativeHelper_resizeImageNative`
(image_processor.cpp, lines 57-116): the `jboolean` returned and the pixel
memory of the destination after the call. -/
def Java_com_nan_webwrapper_NativeHelper_resizeImageNative (srcBitmap dstBitmap : Bitmap) :
    Except Fault (Bool × List Nat) :=
  if srcBitmap.getInfoResult ≠ ANDROID_BITMAP_RESULT_SUCCESS then
    Except.ok (false, dstBitmap.pixels)
  else if dstBitmap.getInfoResult ≠ ANDROID_BITMAP_RESULT_SUCCESS then
    Except.ok (false, dstBitmap.pixels)
  else if srcBitmap.lockPixelsResult ≠ ANDROID_BITMAP_RESULT_SUCCESS then
    Except.ok (false, dstBitmap.pixels)
  else if dstBitmap.lockPixelsResult ≠ ANDROID_BITMAP_RESULT_SUCCESS then
    Except.ok (false, dstBitmap.pixels)
  else
    let srcWidth := toInt srcBitmap.info.width
    let srcHeight := toInt srcBitmap.info.height
    let dstWidth := toInt dstBitmap.info.width
    let dstHeight := toInt dstBitmap.info.height
    if srcBitmap.info.format = ANDROID_BITMAP_FORMAT_RGBA_8888 ∧
        dstBitmap.info.format = ANDROID_BITMAP_FORMAT_RGBA_8888 then
      forLoop dstHeight (resizeRow srcBitmap.pixels srcWidth srcHeight dstWidth dstHeight)
        dstBitmap.pixels >>= fun dst =>
      Except.ok (true, dst)
    else Except.ok (true, dstBitmap.pixels)

/-- The nearest-neighbour relation between a source of `sw × sh` pixels and an
output of `dw × dh` pixels: every index computed is in range and every
destination pixel is the source pixel it is scaled from. -/
def IsNearestNeighbour (sw sh dw dh : Nat) (src out : List Nat) : Prop :=
  ∀ x y, x < dw → y < dh →
    x * sw / dw < sw ∧ y * sh / dh < sh ∧
    (y * sh / dh) * sw + x * sw / dw < sw * sh ∧ y * dw + x < dw * dh ∧
    out[y * dw + x]? = src[(y * sh / dh) * sw + x * sw / dw]?

/-- A 2 × 2 RGBA_8888 bitmap. -/
def bitmap2x2 : Bitmap :=
  { getInfoResult := 0, info := { width := 2, height := 2, format := 1 },
    lockPixelsResult := 0, pixels := [10, 11, 12, 13] }

/-- A 3 × 3 RGBA_8888 bitmap. -/
def bitmap3x3 : Bitmap :=
  { getInfoResult := 0, info := { width := 3, height := 3, format := 1 },
    lockPixelsResult := 0, pixels := [0, 0, 0, 0, 0, 0, 0, 0, 0] }

/-- A 2 × 2 RGB_565 bitmap. -/
def bitmap565 : Bitmap :=
  { getInfoResult := 0, info := { width := 2, height := 2, format := 4 },
    lockPixelsResult := 0, pixels := [20, 21] }

/-! ## Notions used to state the claims -/

/-- Membership in the trim set, as a predicate. -/
def isTrimChar (c : Char) : Bool := trimChars.contains c

/-- What the two `erase` calls of `normalizeUrlNative` leave: the input
without its leading and trailing run of trim characters. -/
def trim (x : List Char) : List Char :=
  (x.dropWhile isTrimChar).rdropWhile isTrimChar

/-- A string that neither begins nor ends with a trim character. -/
def Trimmed (l : List Char) : Prop :=
  (∀ c, l.head? = some c → isTrimChar c = false) ∧
  (∀ c, l.getLast? = some c → isTrimChar c = false)

/-- A path segment: empty, or starting with `'/'`. -/
def IsPath (path : List Char) : Prop := path = [] ∨ ∃ p, path = '/' :: p

/-- Line 126-128: the scheme `https://` is put in front when no `"://"` occurs. -/
def addScheme (t : List Char) : List Char :=
  if find t "://".toList 0 = none then "https://".toList ++ t else t

/-- The fallback test of lines 47-50. -/
def startsWithProtocol (s : List Char) : Bool :=
  find s "http://".toList 0 = some 0 || find s "https://".toList 0 = some 0 ||
    find s "file://".toList 0 = some 0 || find s "ftp://".toList 0 = some 0

/-- The bare-domain form in the words of the specification: a label of 1 to
63 alphanumeric or hyphen characters that neither starts nor ends with a
hyphen, `'.'`, a top-level label of at least 2 alphabetic characters, and
optionally `'/'` followed by any characters. -/
def SpecBareDomain (s : List Char) : Prop :=
  ∃ label tld rest, s = label ++ '.' :: (tld ++ rest) ∧
    1 ≤ label.length ∧ label.length ≤ 63 ∧ (∀ c ∈ label, isAlnumHyphen c = true) ∧
    label.head? ≠ some '-' ∧ label.getLast? ≠ some '-' ∧
    2 ≤ tld.length ∧ (∀ c ∈ tld, isAlpha c = true) ∧ IsPath rest

/-- The bare-domain form without the condition on the last character of the
label. -/
def AcceptedBareDomain (s : List Char) : Prop :=
  ∃ label tld rest, s = label ++ '.' :: (tld ++ rest) ∧
    1 ≤ label.length ∧ label.length ≤ 63 ∧ (∀ c ∈ label, isAlnumHyphen c = true) ∧
    label.head? ≠ some '-' ∧
    2 ≤ tld.length ∧ (∀ c ∈ tld, isAlpha c = true) ∧ IsPath rest

/-- What lines 79-82 of `extractDomainNative` leave: the input after its first
`"://"`, or the whole input when there is none. -/
def stripScheme (u : List Char) : List Char :=
  match find u "://".toList 0 with
  | some protocolEnd => u.drop (protocolEnd + 3)
  | none => u

/-- The part of a string before its first `c`, the whole string when `c` does
not occur. -/
def cutAt (c : Char) (l : List Char) : List Char :=
  l.takeWhile (fun x => x != c)

/-- The number of characters of a string outside the trim set. -/
def nonTrimCount (l : List Char) : Nat :=
  l.countP (fun c => !isTrimChar c)

/-! ## Facts about `find` -/

theorem findAux_at_head (pat r : List Char) (i : Nat) (h : pat ≠ []) :
    findAux pat (pat ++ r) i = some i := by
  cases pat with
  | nil => exact absurd rfl h
  | cons c cs =>
    have hp : (c :: cs).isPrefixOf (c :: (cs ++ r)) = true := by
      rw [List.isPrefixOf_iff_prefix]
      exact ⟨r, rfl⟩
    rw [List.cons_append, findAux, if_pos hp]

theorem find_at_head (pat r : List Char) (h : pat ≠ []) :
    find (pat ++ r) pat 0 = some 0 := by
  unfold find
  rw [if_pos (Nat.zero_le _), List.drop_zero, findAux_at_head pat r 0 h]

/-- The scan `findAux` answers `none` exactly when the pattern occurs nowhere. -/
theorem findAux_eq_none_iff (pat : List Char) (h : pat ≠ []) (l : List Char) (i : Nat) :
    findAux pat l i = none ↔ ¬ pat <:+: l := by
  induction l generalizing i with
  | nil =>
    cases pat with
    | nil => exact absurd rfl h
    | cons c cs => simp [findAux]
  | cons a l ih =>
    rw [List.infix_cons_iff, findAux]
    by_cases hp : pat.isPrefixOf (a :: l) = true
    · simp only [hp, if_true]
      rw [List.isPrefixOf_iff_prefix] at hp
      simp [hp]
    · simp only [hp]
      rw [List.isPrefixOf_iff_prefix] at hp
      simp [hp, ih]

theorem find_eq_none_iff (pat : List Char) (h : pat ≠ []) (s : List Char) :
    find s pat 0 = none ↔ ¬ pat <:+: s := by
  simp [find, findAux_eq_none_iff pat h]

/-- A successful `findAux` splits the input at the first occurrence. -/
theorem findAux_eq_some (pat : List Char) (h : pat ≠ []) (l : List Char) (i j : Nat)
    (hf : findAux pat l i = some j) :
    ∃ s r, l = s ++ pat ++ r ∧ j = i + s.length ∧ ¬ pat <:+: s := by
  induction l generalizing i with
  | nil =>
    cases pat with
    | nil => exact absurd rfl h
    | cons c cs => simp [findAux] at hf
  | cons a l ih =>
    rw [findAux] at hf
    by_cases hp : pat.isPrefixOf (a :: l) = true
    · simp only [hp, if_true, Option.some.injEq] at hf
      rw [List.isPrefixOf_iff_prefix] at hp
      obtain ⟨r, hr⟩ := hp
      refine ⟨[], r, by simpa using hr.symm, by simp [hf], ?_⟩
      intro hin
      exact h (List.eq_nil_of_infix_nil hin)
    · simp only [hp] at hf
      obtain ⟨s, r, hl, hj, hn⟩ := ih (i + 1) hf
      refine ⟨a :: s, r, by simp [hl], by simp [hj]; omega, ?_⟩
      rw [List.infix_cons_iff]
      rintro (hpre | hin)
      · apply hp
        rw [List.isPrefixOf_iff_prefix, hl]
        exact hpre.trans ⟨pat ++ r, by simp⟩
      · exact hn hin

/-- Searching for one character: not found exactly when it does not occur. -/
theorem findAux_char_none (c : Char) (l : List Char) (i : Nat) (h : c ∉ l) :
    findAux [c] l i = none := by
  rw [findAux_eq_none_iff [c] (by simp)]
  rintro ⟨u, v, huv⟩
  exact h (by simp [← huv])

/-- Searching for one character: the first occurrence ends the `c`-free prefix. -/
theorem findAux_char_some (c : Char) (a r : List Char) (i : Nat) (h : c ∉ a) :
    findAux [c] (a ++ c :: r) i = some (i + a.length) := by
  induction a generalizing i with
  | nil => simp [findAux]
  | cons x a ih =>
    have hx : x ≠ c := fun e => h (by simp [e])
    have hc : c ∉ a := fun e => h (by simp [e])
    have hp : [c].isPrefixOf (x :: (a ++ c :: r)) = false := by
      simp [List.isPrefixOf, hx.symm]
    rw [List.cons_append, findAux, hp, if_neg (by simp), ih (i + 1) hc, List.length_cons]
    congr 1
    omega

/-- The separator `"://"` cannot overlap itself: in `s ++ "://" ++ r` the
first occurrence is the displayed one when `s` holds none. -/
theorem findAux_sep (s r : List Char) (i : Nat) (h : ¬ "://".toList <:+: s) :
    findAux "://".toList (s ++ "://".toList ++ r) i = some (i + s.length) := by
  induction s generalizing i with
  | nil =>
    simpa using findAux_at_head "://".toList r i (by decide)
  | cons a s ih =>
    have hs : ¬ "://".toList <:+: s := fun e => h (List.infix_cons e)
    have hp : "://".toList.isPrefixOf (a :: s ++ "://".toList ++ r) = false := by
      cases hb : "://".toList.isPrefixOf (a :: s ++ "://".toList ++ r) with
      | false => rfl
      | true =>
        exfalso
        rcases s with _ | ⟨b, _ | ⟨c, s⟩⟩
        · simp [List.isPrefixOf] at hb
        · simp [List.isPrefixOf] at hb
        · apply h
          simp only [List.cons_append, String.toList, List.isPrefixOf, Bool.and_eq_true,
            beq_iff_eq, Bool.and_true] at hb
          obtain ⟨h1, h2, h3⟩ := hb
          subst h1 h2 h3
          exact ⟨[], s, rfl⟩
    have := ih (i + 1) hs
    simp only [List.cons_append, List.append_assoc] at hp this ⊢
    rw [findAux, hp]
    simp only [Bool.false_eq_true, if_false, this, List.length_cons]
    congr 1
    omega

theorem find_sep (s r : List Char) (h : ¬ "://".toList <:+: s) :
    find (s ++ "://".toList ++ r) "://".toList 0 = some s.length := by
  unfold find
  rw [if_pos (Nat.zero_le _), List.drop_zero, findAux_sep s r 0 h, Nat.zero_add]

/-! ## Facts about trimming -/

theorem firstNotOfAux_none (set l : List Char) (i : Nat)
    (h : firstNotOfAux set l i = none) : l.dropWhile (fun c => set.contains c) = [] := by
  induction l generalizing i with
  | nil => rfl
  | cons a l ih =>
    rw [firstNotOfAux] at h
    by_cases ha : set.contains a = true
    · rw [if_pos ha] at h
      rw [List.dropWhile_cons_of_pos ha]
      exact ih (i + 1) h
    · rw [if_neg ha] at h
      cases h

theorem firstNotOfAux_some (set l : List Char) (i j : Nat)
    (h : firstNotOfAux set l i = some j) :
    ∃ k, j = i + k ∧ k < l.length ∧ l.drop k = l.dropWhile (fun c => set.contains c) := by
  induction l generalizing i with
  | nil => cases h
  | cons a l ih =>
    rw [firstNotOfAux] at h
    by_cases ha : set.contains a = true
    · rw [if_pos ha] at h
      obtain ⟨k, hj, hk, hd⟩ := ih (i + 1) h
      refine ⟨k + 1, by omega, by simp [hk], ?_⟩
      rw [List.dropWhile_cons_of_pos ha, List.drop_succ_cons, hd]
    · rw [if_neg ha] at h
      refine ⟨0, by simpa using (Option.some.inj h).symm, by simp, ?_⟩
      rw [List.dropWhile_cons_of_neg ha, List.drop_zero]

/-- Line 122: the first `erase` removes the leading trim characters. -/
theorem erase_leading (x : List Char) :
    erase x 0 (find_first_not_of x trimChars) = Except.ok (x.dropWhile isTrimChar) := by
  unfold find_first_not_of erase
  rw [if_pos (Nat.zero_le _)]
  cases h : firstNotOfAux trimChars x 0 with
  | none =>
    have hnil : x.dropWhile isTrimChar = [] := firstNotOfAux_none trimChars x 0 h
    rw [hnil]
    simp
  | some j =>
    obtain ⟨k, hj, hk, hd⟩ := firstNotOfAux_some trimChars x 0 j h
    have hjk : j = k := by omega
    subst hjk
    have hmin : min j (x.length - 0) = j := by omega
    simp only [hmin, List.take_zero, List.nil_append, Nat.zero_add, hd]
    rfl

/-- Line 123: the second `erase` removes the trailing trim characters. -/
theorem erase_trailing (y : List Char) :
    erase y (sizeSucc (find_last_not_of y trimChars)) none
      = Except.ok (y.rdropWhile isTrimChar) := by
  unfold find_last_not_of
  cases h : firstNotOfAux trimChars y.reverse 0 with
  | none =>
    have hnil : y.reverse.dropWhile isTrimChar = [] :=
      firstNotOfAux_none trimChars y.reverse 0 h
    have h0 : sizeSucc none = 0 := by decide
    simp only [h0, erase]
    rw [if_pos (Nat.zero_le _), List.rdropWhile, hnil]
    simp
  | some j =>
    obtain ⟨k, hj, hk, hd⟩ := firstNotOfAux_some trimChars y.reverse 0 j h
    have hjk : j = k := by omega
    subst hjk
    rw [List.length_reverse] at hk
    have hpos : sizeSucc (some (y.length - 1 - j)) = y.length - j := by
      simp only [sizeSucc]
      omega
    simp only [hpos, erase]
    rw [if_pos (Nat.sub_le _ _)]
    have hr : y.rdropWhile isTrimChar = y.take (y.length - j) := by
      have : y.reverse.dropWhile isTrimChar = y.reverse.drop j := hd.symm
      rw [List.rdropWhile, this, List.drop_reverse, List.reverse_reverse]
    have hlen : y.length - j + (y.length - (y.length - j)) = y.length := by omega
    simp [hr, hlen]

theorem trimmed_trim (x : List Char) : Trimmed (trim x) := by
  constructor
  · intro c hc
    have hpre : trim x <+: x.dropWhile isTrimChar := List.rdropWhile_prefix _ _
    have hne : trim x ≠ [] := by
      intro e
      simp [e] at hc
    have hh : (x.dropWhile isTrimChar).head? = some c := by
      obtain ⟨t, ht⟩ := hpre
      rw [← ht, List.head?_append_of_ne_nil _ hne]
      exact hc
    have := List.head?_dropWhile_not isTrimChar x
    rw [hh] at this
    simpa using this
  · intro c hc
    have hid : (trim x).rdropWhile isTrimChar = trim x := List.rdropWhile_idempotent _ _
    rw [List.rdropWhile_eq_self_iff] at hid
    have hne : trim x ≠ [] := by
      intro e
      simp [e] at hc
    have := hid hne
    rw [List.getLast?_eq_getLast _ hne] at hc
    have hc := Option.some.inj hc
    rw [hc] at this
    simpa using this

theorem trim_of_trimmed (l : List Char) (h : Trimmed l) : trim l = l := by
  have h1 : l.dropWhile isTrimChar = l := by
    cases l with
    | nil => rfl
    | cons a l =>
      have := h.1 a rfl
      rw [List.dropWhile_cons_of_neg (by simp [this])]
  unfold trim
  rw [h1, List.rdropWhile_eq_self_iff]
  intro hne
  have := h.2 (l.getLast hne) (List.getLast?_eq_getLast _ hne)
  simp [this]

/-- Trimming strips surrounding runs of trim characters from a trimmed,
non-empty core. -/
theorem trim_pad (w1 t w2 : List Char) (h1 : ∀ c ∈ w1, isTrimChar c = true)
    (h2 : ∀ c ∈ w2, isTrimChar c = true) (ht : Trimmed t) (hne : t ≠ []) :
    trim (w1 ++ t ++ w2) = t := by
  have hd : (w1 ++ t ++ w2).dropWhile isTrimChar = t ++ w2 := by
    rw [List.append_assoc, List.dropWhile_append_of_pos h1]
    cases t with
    | nil => exact absurd rfl hne
    | cons a t =>
      have := ht.1 a rfl
      rw [List.cons_append, List.dropWhile_cons_of_neg (by simp [this])]
  have hr : ∀ w : List Char, (∀ c ∈ w, isTrimChar c = true) →
      (t ++ w).rdropWhile isTrimChar = t := by
    intro w
    induction w using List.reverseRecOn with
    | nil =>
      intro _
      rw [List.append_nil]
      have := trim_of_trimmed t ht
      unfold trim at this
      have h1 : t.dropWhile isTrimChar = t := by
        cases t with
        | nil => rfl
        | cons a t =>
          have := ht.1 a rfl
          rw [List.dropWhile_cons_of_neg (by simp [this])]
      rwa [h1] at this
    | append_singleton w a ih =>
      intro hw
      rw [← List.append_assoc, List.rdropWhile_concat_pos _ _ _ (hw a (by simp))]
      exact ih (fun c hc => hw c (by simp [hc]))
  unfold trim
  rw [hd]
  exact hr w2 h2

/-! ## Facts about `tolower` -/

theorem upper_cases (c : Char) (h : 'A' ≤ c ∧ c ≤ 'Z') :
    ∃ n, 65 ≤ n ∧ n ≤ 90 ∧ c = Char.ofNat n := by
  refine ⟨c.toNat, ?_, ?_, (Char.ofNat_toNat c).symm⟩
  · have := h.1
    rw [Char.le_def, UInt32.le_def] at this
    exact this
  · have := h.2
    rw [Char.le_def, UInt32.le_def] at this
    exact this

theorem tolower_idem (c : Char) : tolower (tolower c) = tolower c := by
  by_cases h : 'A' ≤ c ∧ c ≤ 'Z'
  · obtain ⟨n, h1, h2, rfl⟩ := upper_cases c h
    interval_cases n <;> rfl
  · simp [tolower, h]

theorem tolower_eq_slash (c : Char) (h : tolower c = '/') : c = '/' := by
  by_cases hc : 'A' ≤ c ∧ c ≤ 'Z'
  · obtain ⟨n, h1, h2, rfl⟩ := upper_cases c hc
    interval_cases n <;> revert h <;> decide
  · simpa [tolower, hc] using h

theorem isTrimChar_tolower (c : Char) : isTrimChar (tolower c) = isTrimChar c := by
  by_cases hc : 'A' ≤ c ∧ c ≤ 'Z'
  · obtain ⟨n, h1, h2, rfl⟩ := upper_cases c hc
    interval_cases n <;> rfl
  · simp [tolower, hc]

theorem map_tolower_idem (l : List Char) : (l.map tolower).map tolower = l.map tolower := by
  rw [List.map_map]
  apply List.map_congr_left
  intro c _
  exact tolower_idem c

theorem slash_not_mem_map_tolower (l : List Char) (h : '/' ∉ l) : '/' ∉ l.map tolower := by
  intro hm
  obtain ⟨c, hc, he⟩ := List.mem_map.1 hm
  exact h (tolower_eq_slash c he ▸ hc)

/-! ## The shape of a normalised URL -/

/-- Lines 130-146 on a URL split as scheme, `"://"`, authority, path: only the
authority is lower-cased. -/
theorem lowercaseDomain_split (s auth path : List Char) (hs : ¬ "://".toList <:+: s)
    (ha : '/' ∉ auth) (hp : IsPath path) :
    lowercaseDomain (s ++ "://".toList ++ (auth ++ path))
      = Except.ok (s ++ "://".toList ++ (auth.map tolower ++ path)) := by
  have hlen : (s ++ "://".toList).length = s.length + 3 := by simp
  have hdrop : (s ++ "://".toList ++ (auth ++ path)).drop (s.length + 3) = auth ++ path :=
    List.drop_left' hlen
  have htake : (s ++ "://".toList ++ (auth ++ path)).take (s.length + 3) = s ++ "://".toList :=
    List.take_left' hlen
  have hle : s.length + 3 ≤ (s ++ "://".toList ++ (auth ++ path)).length := by
    rw [List.length_append, hlen]
    omega
  unfold lowercaseDomain
  rw [find_sep s (auth ++ path) hs]
  simp only
  unfold find
  rw [if_pos hle, hdrop]
  rcases hp with rfl | ⟨p, rfl⟩
  · rw [List.append_nil, findAux_char_none '/' auth _ ha]
    simp only [substr, bind, Except.bind]
    rw [List.append_nil] at hle hdrop htake
    rw [if_pos hle, if_pos (Nat.zero_le _), List.drop_zero, hdrop, htake]
    simp
  · rw [findAux_char_some '/' auth p _ ha]
    have hle2 : s.length + 3 + auth.length ≤
        (s ++ "://".toList ++ (auth ++ '/' :: p)).length := by
      rw [List.length_append, hlen, List.length_append]
      omega
    have hd2 : (s ++ "://".toList ++ (auth ++ '/' :: p)).drop (s.length + 3 + auth.length)
        = '/' :: p := by
      rw [← List.drop_drop, hdrop]
      exact List.drop_left' rfl
    have hsub : s.length + 3 + auth.length - s.length - 3 = auth.length := by omega
    simp only [substr, bind, Except.bind]
    rw [if_pos hle, if_pos hle2, if_pos (Nat.zero_le _), List.drop_zero, hdrop, htake, hd2, hsub,
      List.take_left' rfl]
    simp

/-- On a non-empty string `normalizeUrlNative` trims, adds the scheme and
lower-cases the authority. -/
theorem normalize_eq (x : List Char) (hx : x ≠ []) :
    Java_com_nan_webwrapper_NativeHelper_normalizeUrlNative (some x)
      = lowercaseDomain (addScheme (trim x)) >>= fun r => Except.ok (some r) := by
  have he : x.isEmpty = false := by
    cases x with
    | nil => exact absurd rfl hx
    | cons a l => rfl
  simp only [Java_com_nan_webwrapper_NativeHelper_normalizeUrlNative, he, erase_leading,
    erase_trailing, bind, Except.bind, addScheme, trim]
  rfl

/-- Every string containing `"://"` splits as scheme, `"://"`, authority, path. -/
theorem split_of_find (u : List Char) (h : find u "://".toList 0 ≠ none) :
    ∃ s auth path, u = s ++ "://".toList ++ (auth ++ path) ∧ ¬ "://".toList <:+: s ∧
      '/' ∉ auth ∧ IsPath path := by
  cases hf : find u "://".toList 0 with
  | none => exact absurd hf h
  | some j =>
    unfold find at hf
    rw [if_pos (Nat.zero_le _), List.drop_zero] at hf
    obtain ⟨s, r, hu, _, hn⟩ := findAux_eq_some "://".toList (by decide) u 0 j hf
    refine ⟨s, r.takeWhile (fun c => c != '/'), r.dropWhile (fun c => c != '/'), ?_, hn, ?_, ?_⟩
    · rw [List.takeWhile_append_dropWhile, hu]
    · intro hm
      have := List.mem_takeWhile_imp hm
      simp at this
    · cases hd : r.dropWhile (fun c => c != '/') with
      | nil => exact Or.inl rfl
      | cons a p =>
        right
        have := List.head?_dropWhile_not (fun c => c != '/') r
        rw [hd] at this
        simp at this
        exact ⟨p, by rw [this]⟩

theorem addScheme_find (t : List Char) : find (addScheme t) "://".toList 0 ≠ none := by
  unfold addScheme
  by_cases h : find t "://".toList 0 = none
  · rw [if_pos h]
    have := find_sep "https".toList t (by decide)
    have e : "https://".toList ++ t = "https".toList ++ "://".toList ++ t := rfl
    rw [e, this]
    simp
  · rw [if_neg h]
    exact h

theorem trimmed_addScheme (t : List Char) (h : Trimmed t) : Trimmed (addScheme t) := by
  unfold addScheme
  by_cases hf : find t "://".toList 0 = none
  · rw [if_pos hf]
    constructor
    · intro c hc
      have : c = 'h' := by simpa [String.toList] using hc.symm
      subst this
      rfl
    · intro c hc
      rw [List.getLast?_append] at hc
      cases hl : t.getLast? with
      | none =>
        rw [hl] at hc
        have : c = '/' := by simpa [String.toList] using hc.symm
        subst this
        rfl
      | some d =>
        rw [hl] at hc
        have : c = d := by simpa using hc.symm
        subst this
        exact h.2 c hl
  · rw [if_neg hf]
    exact h

theorem trimmed_lower (s auth path : List Char)
    (h : Trimmed (s ++ "://".toList ++ (auth ++ path))) :
    Trimmed (s ++ "://".toList ++ (auth.map tolower ++ path)) := by
  constructor
  · intro c hc
    apply h.1 c
    simp only [List.append_assoc, List.head?_append] at hc ⊢
    cases hs : s.head? with
    | none => rw [hs] at hc; simpa [String.toList] using hc
    | some d => rw [hs] at hc; simpa using hc
  · intro c hc
    have h2 := h.2
    simp only [List.getLast?_append, List.getLast?_map] at hc h2
    cases hp : path.getLast? with
    | some d =>
      rw [hp] at hc h2
      exact h2 c (by simpa using hc)
    | none =>
      rw [hp] at hc h2
      cases ha : auth.getLast? with
      | some a =>
        rw [ha] at hc h2
        have hca : c = tolower a := by simpa using hc.symm
        rw [hca, isTrimChar_tolower]
        exact h2 a (by simp)
      | none =>
        rw [ha] at hc h2
        exact h2 c (by simpa using hc)

/-! ## Claims about `normalizeUrlNative` -/

/-- The normal form of a non-empty input: it is returned, it is not empty, it
is trimmed, it contains `"://"`, and the lower-casing block leaves it alone. -/
theorem normalize_normal_form (x : List Char) (hx : x ≠ []) :
    ∃ y, Java_com_nan_webwrapper_NativeHelper_normalizeUrlNative (some x) = Except.ok (some y) ∧
      y ≠ [] ∧ Trimmed y ∧ find y "://".toList 0 ≠ none ∧ lowercaseDomain y = Except.ok y := by
  obtain ⟨s, auth, path, hu, hs, ha, hp⟩ := split_of_find _ (addScheme_find (trim x))
  have htr : Trimmed (s ++ "://".toList ++ (auth ++ path)) := by
    rw [← hu]
    exact trimmed_addScheme _ (trimmed_trim x)
  refine ⟨s ++ "://".toList ++ (auth.map tolower ++ path), ?_, ?_, trimmed_lower s auth path htr,
    ?_, ?_⟩
  · rw [normalize_eq x hx, hu, lowercaseDomain_split s auth path hs ha hp]
    rfl
  · simp [String.toList]
  · rw [find_sep s _ hs]
    simp
  · rw [lowercaseDomain_split s (auth.map tolower) path hs (slash_not_mem_map_tolower auth ha) hp,
      map_tolower_idem]

/-- C1: `normalize` is idempotent: every input string `x` is mapped to a
string `y`, and `y` is mapped to itself. -/
theorem normalize_idempotent (x : List Char) :
    ∃ y, Java_com_nan_webwrapper_NativeHelper_normalizeUrlNative (some x) = Except.ok (some y) ∧
      Java_com_nan_webwrapper_NativeHelper_normalizeUrlNative (some y) = Except.ok (some y) := by
  by_cases hx : x = []
  · subst hx
    exact ⟨[], rfl, rfl⟩
  · obtain ⟨y, hy, hne, htr, hf, hl⟩ := normalize_normal_form x hx
    refine ⟨y, hy, ?_⟩
    have ha : addScheme y = y := by
      unfold addScheme
      rw [if_neg hf]
    rw [normalize_eq y hne, trim_of_trimmed y htr, ha, hl]
    rfl

/-- C2: a scheme-less URL `auth ++ path` (non-empty, without `"://"`, not
beginning or ending with a trim character, `auth` free of `'/'`, `path` empty
or starting with `'/'`), padded on both sides with trim characters, is
normalised to `"https://"`, the lower-cased `auth`, and `path` as it was. -/
theorem normalize_schemeless (w1 auth path w2 : List Char)
    (hw1 : ∀ c ∈ w1, c ∈ trimChars) (hw2 : ∀ c ∈ w2, c ∈ trimChars)
    (hne : auth ++ path ≠ []) (hsep : ¬ "://".toList <:+: auth ++ path)
    (htr : Trimmed (auth ++ path)) (ha : '/' ∉ auth) (hp : IsPath path) :
    Java_com_nan_webwrapper_NativeHelper_normalizeUrlNative (some (w1 ++ (auth ++ path) ++ w2))
      = Except.ok (some ("https://".toList ++ (auth.map tolower ++ path))) := by
  have hx : w1 ++ (auth ++ path) ++ w2 ≠ [] := by
    intro e
    apply hne
    have := congrArg List.length e
    simp only [List.length_append, List.length_nil] at this
    apply List.eq_nil_of_length_eq_zero
    rw [List.length_append]
    omega
  have ht : trim (w1 ++ (auth ++ path) ++ w2) = auth ++ path :=
    trim_pad w1 _ w2 (fun c hc => by simpa [isTrimChar] using hw1 c hc)
      (fun c hc => by simpa [isTrimChar] using hw2 c hc) htr hne
  have hadd : addScheme (auth ++ path) = "https".toList ++ "://".toList ++ (auth ++ path) := by
    unfold addScheme
    rw [if_pos ((find_eq_none_iff _ (by decide) _).2 hsep)]
    rfl
  rw [normalize_eq _ hx, ht, hadd, lowercaseDomain_split "https".toList auth path (by decide) ha hp]
  rfl

/-- C2, at the input of the specification. -/
theorem normalize_schemeless_witness :
    Java_com_nan_webwrapper_NativeHelper_normalizeUrlNative (some " Example.COM/Path ".toList)
      = Except.ok (some "https://example.com/Path".toList) :=
  normalize_schemeless " ".toList "Example.COM".toList "/Path".toList " ".toList
    (by decide) (by decide) (by decide) (by decide)
    ⟨fun c h => by cases h; rfl, fun c h => by cases h; rfl⟩ (by decide) (Or.inr ⟨_, rfl⟩)

/-- C3: on a trimmed URL `s ++ "://" ++ auth ++ path` (`s` without `"://"`,
`auth` free of `'/'`, `path` empty or starting with `'/'`) `normalize` returns
the scheme and the path untouched and the authority lower-cased; no
`"https://"` is put in front. -/
theorem normalize_with_scheme (s auth path : List Char)
    (hs : ¬ "://".toList <:+: s) (ha : '/' ∉ auth) (hp : IsPath path)
    (htr : Trimmed (s ++ "://".toList ++ (auth ++ path))) :
    Java_com_nan_webwrapper_NativeHelper_normalizeUrlNative
        (some (s ++ "://".toList ++ (auth ++ path)))
      = Except.ok (some (s ++ "://".toList ++ (auth.map tolower ++ path))) := by
  have hx : s ++ "://".toList ++ (auth ++ path) ≠ [] := by simp [String.toList]
  have hadd : addScheme (s ++ "://".toList ++ (auth ++ path))
      = s ++ "://".toList ++ (auth ++ path) := by
    unfold addScheme
    rw [if_neg]
    rw [find_sep s _ hs]
    simp
  rw [normalize_eq _ hx, trim_of_trimmed _ htr, hadd, lowercaseDomain_split s auth path hs ha hp]
  rfl

/-- C3, at the input of the specification. -/
theorem normalize_with_scheme_witness :
    Java_com_nan_webwrapper_NativeHelper_normalizeUrlNative (some "HTTP://FOO.COM".toList)
      = Except.ok (some "HTTP://foo.com".toList) :=
  normalize_with_scheme "HTTP".toList "FOO.COM".toList [] (by decide) (by decide) (Or.inl rfl)
    ⟨fun c h => by cases h; rfl, fun c h => by cases h; rfl⟩

/-- C4: `normalize` of the empty string is the empty string, and `normalize`
of a non-empty string made only of trim characters is exactly `"https://"`. -/
theorem normalize_blank :
    Java_com_nan_webwrapper_NativeHelper_normalizeUrlNative (some []) = Except.ok (some []) ∧
    ∀ w : List Char, w ≠ [] → (∀ c ∈ w, c ∈ trimChars) →
      Java_com_nan_webwrapper_NativeHelper_normalizeUrlNative (some w)
        = Except.ok (some "https://".toList) := by
  refine ⟨rfl, ?_⟩
  intro w hne hw
  have ht : trim w = [] := by
    have : w.dropWhile isTrimChar = [] := by
      rw [List.dropWhile_eq_nil_iff]
      intro c hc
      simpa [isTrimChar] using hw c hc
    unfold trim
    rw [this]
    rfl
  rw [normalize_eq w hne, ht]
  rfl

/-- C4, at three spaces. -/
theorem normalize_blank_witness :
    Java_com_nan_webwrapper_NativeHelper_normalizeUrlNative (some "   ".toList)
      = Except.ok (some "https://".toList) :=
  normalize_blank.2 "   ".toList (by decide) (by decide)

/-! ## Facts about the matcher -/

theorem matchRx_cls_cons (p : Char → Bool) (k : List Char → Bool) (c : Char) (s : List Char) :
    matchRx (Rx.cls p) k (c :: s) = (p c && k s) := rfl

theorem matchRx_seq (a b : Rx) (k : List Char → Bool) (s : List Char) :
    matchRx (Rx.seq a b) k s = matchRx a (matchRx b k) s := rfl

theorem matchRx_alt (a b : Rx) (k : List Char → Bool) (s : List Char) :
    matchRx (Rx.alt a b) k s = (matchRx a k s || matchRx b k s) := rfl

theorem matchRx_eps (k : List Char → Bool) (s : List Char) :
    matchRx Rx.eps k s = k s := rfl

theorem matchRx_opt (a : Rx) (k : List Char → Bool) (s : List Char) :
    matchRx (Rx.opt a) k s = (matchRx a k s || k s) := rfl

/-- A one-character matcher succeeds only on a non-empty input whose head is
in the class. -/
theorem matchRx_cls_inv (p : Char → Bool) (k : List Char → Bool) (s : List Char)
    (h : matchRx (Rx.cls p) k s = true) :
    ∃ c rest, s = c :: rest ∧ p c = true ∧ k rest = true := by
  cases s with
  | nil => cases h
  | cons c rest =>
    rw [matchRx_cls_cons, Bool.and_eq_true] at h
    exact ⟨c, rest, rfl, h.1, h.2⟩

/-- The expression `[p]{n}` accepts `n` characters of the class. -/
theorem matchRx_pow (p : Char → Bool) (k : List Char → Bool) (w s : List Char)
    (hw : ∀ c ∈ w, p c = true) (hk : k s = true) :
    matchRx (Rx.pow (Rx.cls p) w.length) k (w ++ s) = true := by
  induction w with
  | nil => exact hk
  | cons c w ih =>
    rw [List.length_cons, Rx.pow, matchRx_seq, List.cons_append, matchRx_cls_cons,
      hw c (by simp), ih (fun d hd => hw d (by simp [hd]))]
    rfl

/-- The expression `[p]{n}` accepts only `n` characters of the class. -/
theorem matchRx_pow_inv (p : Char → Bool) (k : List Char → Bool) (n : Nat) (s : List Char)
    (h : matchRx (Rx.pow (Rx.cls p) n) k s = true) :
    ∃ w rest, s = w ++ rest ∧ w.length = n ∧ (∀ c ∈ w, p c = true) ∧ k rest = true := by
  induction n generalizing s with
  | zero => exact ⟨[], s, rfl, rfl, by simp, h⟩
  | succ n ih =>
    rw [Rx.pow, matchRx_seq] at h
    obtain ⟨c, rest, rfl, hc, hr⟩ := matchRx_cls_inv p _ s h
    obtain ⟨w, rest2, rfl, hl, hw, hk⟩ := ih rest hr
    refine ⟨c :: w, rest2, rfl, by simp [hl], ?_, hk⟩
    intro d hd
    rcases List.mem_cons.1 hd with rfl | hd
    · exact hc
    · exact hw d hd

/-- The expression `[p]{0,n}` accepts up to `n` characters of the class. -/
theorem matchRx_upTo (p : Char → Bool) (k : List Char → Bool) (n : Nat) (w s : List Char)
    (hn : w.length ≤ n) (hw : ∀ c ∈ w, p c = true) (hk : k s = true) :
    matchRx (Rx.upTo (Rx.cls p) n) k (w ++ s) = true := by
  induction n generalizing w with
  | zero =>
    have : w = [] := List.eq_nil_of_length_eq_zero (Nat.le_zero.1 hn)
    subst this
    exact hk
  | succ n ih =>
    rw [Rx.upTo, matchRx_opt]
    cases w with
    | nil =>
      rw [List.nil_append, hk, Bool.or_true]
    | cons c w =>
      rw [matchRx_seq, List.cons_append, matchRx_cls_cons, hw c (by simp),
        ih w (by simpa using hn) (fun d hd => hw d (by simp [hd]))]
      rfl

/-- The expression `[p]{0,n}` accepts only up to `n` characters of the class. -/
theorem matchRx_upTo_inv (p : Char → Bool) (k : List Char → Bool) (n : Nat) (s : List Char)
    (h : matchRx (Rx.upTo (Rx.cls p) n) k s = true) :
    ∃ w rest, s = w ++ rest ∧ w.length ≤ n ∧ (∀ c ∈ w, p c = true) ∧ k rest = true := by
  induction n generalizing s with
  | zero => exact ⟨[], s, rfl, Nat.le_refl _, by simp, h⟩
  | succ n ih =>
    rw [Rx.upTo, matchRx_opt, Bool.or_eq_true] at h
    rcases h with h | h
    · rw [matchRx_seq] at h
      obtain ⟨c, rest, rfl, hc, hr⟩ := matchRx_cls_inv p _ s h
      obtain ⟨w, rest2, rfl, hl, hw, hk⟩ := ih rest hr
      refine ⟨c :: w, rest2, rfl, by simp [hl], ?_, hk⟩
      intro d hd
      rcases List.mem_cons.1 hd with rfl | hd
      · exact hc
      · exact hw d hd
    · exact ⟨[], s, rfl, Nat.zero_le _, by simp, h⟩

/-- The expression `[p]*` accepts any run of characters of the class. -/
theorem matchStar_cls (p : Char → Bool) (k : List Char → Bool) (w s : List Char) (fuel : Nat)
    (hf : w.length ≤ fuel) (hw : ∀ c ∈ w, p c = true) (hk : k s = true) :
    matchStar (matchRx (Rx.cls p)) k fuel (w ++ s) = true := by
  induction w generalizing fuel with
  | nil =>
    cases fuel with
    | zero => exact hk
    | succ n => rw [List.nil_append, matchStar, hk, Bool.or_true]
  | cons c w ih =>
    cases fuel with
    | zero => simp at hf
    | succ n =>
      rw [List.cons_append, matchStar, matchRx_cls_cons, hw c (by simp),
        ih n (by simpa using hf) (fun d hd => hw d (by simp [hd]))]
      simp

theorem matchRx_star_cls (p : Char → Bool) (k : List Char → Bool) (w s : List Char)
    (hw : ∀ c ∈ w, p c = true) (hk : k s = true) :
    matchRx (Rx.star (Rx.cls p)) k (w ++ s) = true :=
  matchStar_cls p k w s (w ++ s).length (by simp) hw hk

/-- The expression `[p]*` accepts only runs of characters of the class. -/
theorem matchStar_cls_inv (p : Char → Bool) (k : List Char → Bool) (fuel : Nat) (s : List Char)
    (h : matchStar (matchRx (Rx.cls p)) k fuel s = true) :
    ∃ w rest, s = w ++ rest ∧ (∀ c ∈ w, p c = true) ∧ k rest = true := by
  induction fuel generalizing s with
  | zero => exact ⟨[], s, rfl, by simp, h⟩
  | succ n ih =>
    rw [matchStar, Bool.or_eq_true] at h
    rcases h with h | h
    · obtain ⟨c, rest, rfl, hc, hr⟩ := matchRx_cls_inv p _ s h
      rw [Bool.and_eq_true] at hr
      obtain ⟨w, rest2, rfl, hw, hk⟩ := ih rest hr.2
      refine ⟨c :: w, rest2, rfl, ?_, hk⟩
      intro d hd
      rcases List.mem_cons.1 hd with rfl | hd
      · exact hc
      · exact hw d hd
    · exact ⟨[], s, rfl, by simp, h⟩

/-! ## Claims about `validateUrlNative` -/

/-- The verdict on a non-null string: not empty, and accepted by the pattern
or by the fallback test. -/
theorem validate_iff (s : List Char) :
    Java_com_nan_webwrapper_NativeHelper_validateUrlNative (some s) = true ↔
      s ≠ [] ∧ (regex_match s urlPattern = true ∨ startsWithProtocol s = true) := by
  cases s with
  | nil => simp [Java_com_nan_webwrapper_NativeHelper_validateUrlNative]
  | cons a l =>
    simp only [Java_com_nan_webwrapper_NativeHelper_validateUrlNative, startsWithProtocol,
      List.isEmpty_cons]
    cases regex_match (a :: l) urlPattern <;> simp

/-- C5: every string that begins with `http://`, `https://`, `file://` or
`ftp://` is valid, whatever follows the prefix. -/
theorem valid_of_protocol_start (pre r : List Char)
    (h : pre = "http://".toList ∨ pre = "https://".toList ∨ pre = "file://".toList ∨
      pre = "ftp://".toList) :
    Java_com_nan_webwrapper_NativeHelper_validateUrlNative (some (pre ++ r)) = true := by
  rw [validate_iff]
  have hne : pre ≠ [] := by
    rcases h with rfl | rfl | rfl | rfl <;> decide
  refine ⟨by simp [hne], Or.inr ?_⟩
  have hf := find_at_head pre r hne
  unfold startsWithProtocol
  rcases h with rfl | rfl | rfl | rfl <;> rw [hf] <;> simp only [decide_True, Bool.or_true,
    Bool.true_or]

/-- C5, at a prefix followed by white space only. -/
theorem valid_of_protocol_start_witness :
    Java_com_nan_webwrapper_NativeHelper_validateUrlNative (some "file:// \n".toList) = true :=
  valid_of_protocol_start "file://".toList " \n".toList (Or.inr (Or.inr (Or.inl rfl)))

/-- What `[^\s/$.?#].[^\s]*$` accepts after the separator. -/
theorem scheme_tail_match (c d : Char) (rest : List Char) (hc : isHostStart c = true)
    (hd : isNotNewline d = true) (hr : ∀ e ∈ rest, isNotSpace e = true) :
    matchRx (Rx.seq (Rx.cls isHostStart) (Rx.seq (Rx.cls isNotNewline)
      (Rx.star (Rx.cls isNotSpace)))) (fun r => r.isEmpty) (c :: d :: rest) = true := by
  rw [matchRx_seq, matchRx_cls_cons, hc, matchRx_seq, matchRx_cls_cons, hd]
  have := matchRx_star_cls isNotSpace (fun r => r.isEmpty) rest [] hr rfl
  rw [List.append_nil] at this
  rw [this]
  rfl

theorem schemePattern_unfold :
    schemePattern = Rx.seq (Rx.lit 'h') (Rx.seq (Rx.lit 't') (Rx.seq (Rx.lit 't')
      (Rx.seq (Rx.lit 'p') (Rx.seq (Rx.opt (Rx.lit 's')) (Rx.seq (Rx.lit ':')
      (Rx.seq (Rx.lit '/') (Rx.seq (Rx.lit '/') (Rx.seq (Rx.cls isHostStart)
      (Rx.seq (Rx.cls isNotNewline) (Rx.star (Rx.cls isNotSpace))))))))))) := rfl

theorem matchRx_lit_cons (x : Char) (k : List Char → Bool) (c : Char) (s : List Char) :
    matchRx (Rx.lit x) k (c :: s) = (tolower c == tolower x && k s) := rfl

theorem isNotNewline_of_not_space (d : Char) (h : isSpace d = false) : isNotNewline d = true := by
  simp only [isSpace, Bool.or_eq_false_iff] at h
  simp [isNotNewline, h]

/-- C6 (amended): a scheme that is `http` or `https` up to letter case, then
`"://"`, then a non-space character other than `/ $ . ? #`, then at least one
further non-space character, is valid. -/
theorem valid_of_scheme_form (sch : List Char) (c d : Char) (rest : List Char)
    (hsch : sch.map tolower = "http".toList ∨ sch.map tolower = "https".toList)
    (hc : isSpace c = false) (hc2 : c ∉ "/$.?#".toList)
    (hd : isSpace d = false) (hrest : ∀ e ∈ rest, isSpace e = false) :
    Java_com_nan_webwrapper_NativeHelper_validateUrlNative
      (some (sch ++ "://".toList ++ c :: d :: rest)) = true := by
  have hhost : isHostStart c = true := by
    simp only [String.toList, List.mem_cons, List.mem_singleton, not_or, List.not_mem_nil,
      not_false_eq_true, and_true] at hc2
    simp [isHostStart, hc, hc2]
  have htail := scheme_tail_match c d rest hhost (isNotNewline_of_not_space d hd)
    (fun e he => by simp [isNotSpace, hrest e he])
  rw [validate_iff]
  refine ⟨by simp [String.toList], Or.inl ?_⟩
  unfold regex_match urlPattern
  rw [matchRx_alt, Bool.or_eq_true]
  left
  rw [schemePattern_unfold]
  rcases hsch with hsch | hsch
  · rcases sch with _ | ⟨a1, _ | ⟨a2, _ | ⟨a3, _ | ⟨a4, _ | ⟨a5, sch⟩⟩⟩⟩⟩ <;>
      simp [String.toList] at hsch
    obtain ⟨h1, h2, h3, h4⟩ := hsch
    simp only [List.cons_append, List.nil_append, String.toList, matchRx_seq, matchRx_lit_cons,
      matchRx_opt, h1, h2, h3, h4]
    rw [matchRx_seq] at htail
    rw [htail]
    rfl
  · rcases sch with _ | ⟨a1, _ | ⟨a2, _ | ⟨a3, _ | ⟨a4, _ | ⟨a5, _ | ⟨a6, sch⟩⟩⟩⟩⟩⟩ <;>
      simp [String.toList] at hsch
    obtain ⟨h1, h2, h3, h4, h5⟩ := hsch
    simp only [List.cons_append, List.nil_append, String.toList, matchRx_seq, matchRx_lit_cons,
      matchRx_opt, h1, h2, h3, h4, h5]
    rw [matchRx_seq] at htail
    rw [htail]
    rfl

/-- C6 (amended), at an upper-case scheme. -/
theorem valid_of_scheme_form_witness :
    Java_com_nan_webwrapper_NativeHelper_validateUrlNative (some "HTTP://FOO.COM".toList) = true :=
  valid_of_scheme_form "HTTP".toList 'F' 'O' "O.COM".toList (Or.inl (by decide)) (by decide)
    (by decide) (by decide) (by decide)

/-- C6 as stated fails: `HTTP://a` has an upper-case `http` scheme, `"://"`
and one non-space character other than `/ $ . ? #`, followed by zero further
characters, and is rejected. -/
theorem valid_of_scheme_form_counterexample :
    "HTTP".toList.map tolower = "http".toList ∧ isSpace 'a' = false ∧ 'a' ∉ "/$.?#".toList ∧
    Java_com_nan_webwrapper_NativeHelper_validateUrlNative
      (some ("HTTP".toList ++ "://".toList ++ ['a'])) = false := by
  decide

/-- The expression `[p]{lo,hi}` accepts between `lo` and `hi` characters of the class. -/
theorem matchRx_rep (p : Char → Bool) (k : List Char → Bool) (lo hi : Nat) (w s : List Char)
    (hlo : lo ≤ w.length) (hhi : w.length ≤ hi) (hw : ∀ c ∈ w, p c = true) (hk : k s = true) :
    matchRx (Rx.rep (Rx.cls p) lo hi) k (w ++ s) = true := by
  have hsplit : w ++ s = w.take lo ++ (w.drop lo ++ s) := by
    rw [← List.append_assoc, List.take_append_drop]
  have hl : (w.take lo).length = lo := by
    rw [List.length_take]
    omega
  have h2 : matchRx (Rx.upTo (Rx.cls p) (hi - lo)) k (w.drop lo ++ s) = true :=
    matchRx_upTo p k (hi - lo) (w.drop lo) s (by rw [List.length_drop]; omega)
      (fun c hc => hw c (List.mem_of_mem_drop hc)) hk
  have h1 := matchRx_pow p (matchRx (Rx.upTo (Rx.cls p) (hi - lo)) k) (w.take lo)
    (w.drop lo ++ s) (fun c hc => hw c (List.mem_of_mem_take hc)) h2
  rw [hl] at h1
  rw [Rx.rep, matchRx_seq, hsplit]
  exact h1

/-- The expression `[p]{lo,}` accepts `lo` or more characters of the class. -/
theorem matchRx_atLeast (p : Char → Bool) (k : List Char → Bool) (lo : Nat) (w s : List Char)
    (hlo : lo ≤ w.length) (hw : ∀ c ∈ w, p c = true) (hk : k s = true) :
    matchRx (Rx.atLeast (Rx.cls p) lo) k (w ++ s) = true := by
  have hsplit : w ++ s = w.take lo ++ (w.drop lo ++ s) := by
    rw [← List.append_assoc, List.take_append_drop]
  have hl : (w.take lo).length = lo := by
    rw [List.length_take]
    omega
  have h2 : matchRx (Rx.star (Rx.cls p)) k (w.drop lo ++ s) = true :=
    matchRx_star_cls p k (w.drop lo) s (fun c hc => hw c (List.mem_of_mem_drop hc)) hk
  have h1 := matchRx_pow p (matchRx (Rx.star (Rx.cls p)) k) (w.take lo)
    (w.drop lo ++ s) (fun c hc => hw c (List.mem_of_mem_take hc)) h2
  rw [hl] at h1
  rw [Rx.atLeast, matchRx_seq, hsplit]
  exact h1

theorem domainPattern_unfold :
    domainPattern = Rx.seq (Rx.cls isAlnum) (Rx.seq (Rx.rep (Rx.cls isAlnumHyphen) 1 61)
      (Rx.seq (Rx.opt (Rx.cls isAlnum)) (Rx.seq (Rx.lit '.')
      (Rx.seq (Rx.atLeast (Rx.cls isAlpha) 2)
      (Rx.opt (Rx.seq (Rx.lit '/') (Rx.star (Rx.cls isNotNewline)))))))) := rfl

/-- What `\.[a-zA-Z]{2,}(/.*)?$` accepts. -/
theorem domain_tail_match (tld rest : List Char) (htld : 2 ≤ tld.length)
    (halpha : ∀ c ∈ tld, isAlpha c = true)
    (hrest : rest = [] ∨ ∃ p, rest = '/' :: p ∧ ∀ c ∈ p, isNotNewline c = true) :
    matchRx (Rx.seq (Rx.lit '.') (Rx.seq (Rx.atLeast (Rx.cls isAlpha) 2)
      (Rx.opt (Rx.seq (Rx.lit '/') (Rx.star (Rx.cls isNotNewline))))))
      (fun r => r.isEmpty) ('.' :: (tld ++ rest)) = true := by
  rw [matchRx_seq, matchRx_lit_cons, matchRx_seq]
  have : matchRx (Rx.atLeast (Rx.cls isAlpha) 2)
      (matchRx (Rx.opt (Rx.seq (Rx.lit '/') (Rx.star (Rx.cls isNotNewline))))
        (fun r => r.isEmpty)) (tld ++ rest) = true := by
    apply matchRx_atLeast isAlpha _ 2 tld rest htld halpha
    rw [matchRx_opt, Bool.or_eq_true]
    rcases hrest with rfl | ⟨p, rfl, hp⟩
    · right
      rfl
    · left
      rw [matchRx_seq, matchRx_lit_cons]
      have := matchRx_star_cls isNotNewline (fun r => r.isEmpty) p [] hp rfl
      rw [List.append_nil] at this
      rw [this]
      rfl
  rw [this]
  rfl

theorem isAlnum_of_not_hyphen (c : Char) (h : isAlnumHyphen c = true) (hc : c ≠ '-') :
    isAlnum c = true := by
  simp only [isAlnumHyphen, Bool.or_eq_true, beq_iff_eq] at h
  rcases h with h | h
  · simpa [isAlnum] using h
  · exact absurd h hc

/-- C7 (amended): a label of 2 to 63 alphanumeric or hyphen characters that
neither starts nor ends with a hyphen, then `'.'`, then a top-level label of
at least 2 alphabetic characters, optionally followed by `'/'` and any
characters other than newline and carriage return, is valid. -/
theorem valid_of_bare_domain (label tld rest : List Char)
    (hlo : 2 ≤ label.length) (hhi : label.length ≤ 63)
    (hchars : ∀ c ∈ label, isAlnumHyphen c = true)
    (hfirst : label.head? ≠ some '-') (hlast : label.getLast? ≠ some '-')
    (htld : 2 ≤ tld.length) (halpha : ∀ c ∈ tld, isAlpha c = true)
    (hrest : rest = [] ∨ ∃ p, rest = '/' :: p ∧ ∀ c ∈ p, c ≠ '\n' ∧ c ≠ '\r') :
    Java_com_nan_webwrapper_NativeHelper_validateUrlNative
      (some (label ++ '.' :: (tld ++ rest))) = true := by
  have htail := domain_tail_match tld rest htld halpha (by
    rcases hrest with h | ⟨p, hp, hc⟩
    · exact Or.inl h
    · exact Or.inr ⟨p, hp, fun c hcp => by simp [isNotNewline, hc c hcp]⟩)
  rw [validate_iff]
  refine ⟨by simp, Or.inl ?_⟩
  unfold regex_match urlPattern
  rw [matchRx_alt, Bool.or_eq_true]
  right
  rw [domainPattern_unfold]
  cases label with
  | nil => simp at hlo
  | cons c0 body =>
    have hc0 : isAlnum c0 = true :=
      isAlnum_of_not_hyphen c0 (hchars c0 (by simp)) (fun e => hfirst (by simp [e]))
    have hbody : body ≠ [] := by
      intro e
      simp [e] at hlo
    obtain ⟨init, l, hb⟩ := (List.eq_nil_or_concat body).resolve_left hbody
    rw [List.concat_eq_append] at hb
    subst hb
    have hl : isAlnum l = true := by
      apply isAlnum_of_not_hyphen l (hchars l (by simp))
      intro e
      apply hlast
      rw [e, ← List.cons_append, List.getLast?_append]
      rfl
    rw [List.cons_append, matchRx_seq, matchRx_cls_cons, hc0, Bool.true_and, matchRx_seq]
    simp only [List.length_cons, List.length_append, List.length_nil] at hhi
    by_cases hinit : init = []
    · subst hinit
      rw [List.nil_append]
      apply matchRx_rep isAlnumHyphen _ 1 61 [l] _ (by simp) (by simp)
        (fun c hc => hchars c (by simp at hc; simp [hc]))
      rw [matchRx_seq, matchRx_opt, Bool.or_eq_true]
      right
      exact htail
    · rw [List.append_assoc]
      apply matchRx_rep isAlnumHyphen _ 1 61 init _
        (by
          cases init with
          | nil => exact absurd rfl hinit
          | cons a t => simp)
        (by omega) (fun c hc => hchars c (by simp [hc]))
      rw [matchRx_seq, matchRx_opt, Bool.or_eq_true]
      left
      rw [List.singleton_append, matchRx_cls_cons, hl, Bool.true_and]
      exact htail

/-- C7 (amended), at the two inputs of the specification. -/
theorem valid_of_bare_domain_witness :
    Java_com_nan_webwrapper_NativeHelper_validateUrlNative (some "example.com".toList) = true ∧
    Java_com_nan_webwrapper_NativeHelper_validateUrlNative (some "example.com/path".toList)
      = true :=
  ⟨valid_of_bare_domain "example".toList "com".toList [] (by decide) (by decide) (by decide)
      (by decide) (by decide) (by decide) (by decide) (Or.inl rfl),
    valid_of_bare_domain "example".toList "com".toList "/path".toList (by decide) (by decide)
      (by decide) (by decide) (by decide) (by decide) (by decide)
      (Or.inr ⟨"path".toList, rfl, by decide⟩)⟩

/-- C7 as stated fails twice: `a.com` has a label of one character, and
`ab.com/` followed by a newline has a path holding a newline; both are of the
bare-domain form of the specification and both are rejected. -/
theorem valid_of_bare_domain_counterexample :
    (SpecBareDomain "a.com".toList ∧
      Java_com_nan_webwrapper_NativeHelper_validateUrlNative (some "a.com".toList) = false) ∧
    (SpecBareDomain "ab.com/\n".toList ∧
      Java_com_nan_webwrapper_NativeHelper_validateUrlNative (some "ab.com/\n".toList) = false) :=
  ⟨⟨⟨"a".toList, "com".toList, [], rfl, by decide, by decide, by decide, by decide, by decide,
      by decide, by decide, Or.inl rfl⟩, by decide⟩,
    ⟨⟨"ab".toList, "com".toList, "/\n".toList, rfl, by decide, by decide, by decide, by decide,
      by decide, by decide, by decide, Or.inr ⟨_, rfl⟩⟩, by decide⟩⟩

theorem tolower_eq_fixed (x c : Char) (hc : ¬ ('a' ≤ c ∧ c ≤ 'z')) (h : tolower x = c) :
    x = c := by
  by_cases hx : 'A' ≤ x ∧ x ≤ 'Z'
  · obtain ⟨n, h1, h2, rfl⟩ := upper_cases x hx
    subst h
    exfalso
    apply hc
    interval_cases n <;> decide
  · simpa [tolower, hx] using h

theorem matchRx_lit_inv (x : Char) (hx : ¬ ('a' ≤ x ∧ x ≤ 'z')) (hx2 : tolower x = x)
    (k : List Char → Bool) (s : List Char) (h : matchRx (Rx.lit x) k s = true) :
    ∃ rest, s = x :: rest ∧ k rest = true := by
  obtain ⟨c, rest, rfl, hc, hk⟩ := matchRx_cls_inv _ k s h
  rw [beq_iff_eq, hx2] at hc
  exact ⟨rest, by rw [tolower_eq_fixed c x hx hc], hk⟩

theorem starts_of_find_zero (s pat : List Char) (hp : pat ≠ []) (h : find s pat 0 = some 0) :
    pat <+: s := by
  unfold find at h
  rw [if_pos (Nat.zero_le _), List.drop_zero] at h
  obtain ⟨u, r, hs, hz, _⟩ := findAux_eq_some pat hp s 0 0 h
  have : u = [] := List.eq_nil_of_length_eq_zero (by omega)
  subst this
  exact ⟨r, by simpa using hs.symm⟩

/-- Each of the four protocol prefixes holds the separator. -/
theorem sep_of_startsWithProtocol (s : List Char) (h : startsWithProtocol s = true) :
    "://".toList <:+: s := by
  simp only [startsWithProtocol, Bool.or_eq_true, decide_eq_true_eq] at h
  rcases h with ((h | h) | h) | h
  · exact List.IsInfix.trans (by decide) (starts_of_find_zero s _ (by decide) h).isInfix
  · exact List.IsInfix.trans (by decide) (starts_of_find_zero s _ (by decide) h).isInfix
  · exact List.IsInfix.trans (by decide) (starts_of_find_zero s _ (by decide) h).isInfix
  · exact List.IsInfix.trans (by decide) (starts_of_find_zero s _ (by decide) h).isInfix

/-- Whatever the first alternative of the pattern accepts holds the separator. -/
theorem sep_of_schemePattern (s : List Char)
    (h : matchRx schemePattern (fun r => r.isEmpty) s = true) : "://".toList <:+: s := by
  have hsep : ∀ (k : List Char → Bool) (r : List Char) (X : Rx),
      matchRx (Rx.seq (Rx.lit ':') (Rx.seq (Rx.lit '/') (Rx.seq (Rx.lit '/') X))) k r = true →
      ∃ r', r = "://".toList ++ r' := by
    intro k r X hm
    rw [matchRx_seq] at hm
    obtain ⟨r1, rfl, hm1⟩ := matchRx_lit_inv ':' (by decide) (by decide) _ _ hm
    rw [matchRx_seq] at hm1
    obtain ⟨r2, rfl, hm2⟩ := matchRx_lit_inv '/' (by decide) (by decide) _ _ hm1
    rw [matchRx_seq] at hm2
    obtain ⟨r3, rfl, _⟩ := matchRx_lit_inv '/' (by decide) (by decide) _ _ hm2
    exact ⟨r3, rfl⟩
  rw [schemePattern_unfold, matchRx_seq] at h
  obtain ⟨c1, s1, rfl, _, h1⟩ := matchRx_cls_inv _ _ _ h
  rw [matchRx_seq] at h1
  obtain ⟨c2, s2, rfl, _, h2⟩ := matchRx_cls_inv _ _ _ h1
  rw [matchRx_seq] at h2
  obtain ⟨c3, s3, rfl, _, h3⟩ := matchRx_cls_inv _ _ _ h2
  rw [matchRx_seq] at h3
  obtain ⟨c4, s4, rfl, _, h4⟩ := matchRx_cls_inv _ _ _ h3
  rw [matchRx_seq, matchRx_opt, Bool.or_eq_true] at h4
  rcases h4 with h5 | h5
  · obtain ⟨c5, s5, rfl, _, h6⟩ := matchRx_cls_inv _ _ _ h5
    obtain ⟨r, rfl⟩ := hsep _ _ _ h6
    exact ⟨[c1, c2, c3, c4, c5], r, rfl⟩
  · obtain ⟨r, rfl⟩ := hsep _ _ _ h5
    exact ⟨[c1, c2, c3, c4], r, rfl⟩

theorem isAlnumHyphen_of_isAlnum (c : Char) (h : isAlnum c = true) :
    isAlnumHyphen c = true := by
  simp only [isAlnumHyphen, Bool.or_eq_true]
  left
  simpa [isAlnum] using h

/-- Whatever the second alternative of the pattern accepts is of the
bare-domain form, the last character of the label apart. -/
theorem accepted_of_domainPattern (s : List Char)
    (h : matchRx domainPattern (fun r => r.isEmpty) s = true) : AcceptedBareDomain s := by
  rw [domainPattern_unfold, matchRx_seq] at h
  obtain ⟨c0, s1, rfl, hc0, g1⟩ := matchRx_cls_inv _ _ _ h
  rw [matchRx_seq, Rx.rep, matchRx_seq] at g1
  obtain ⟨w1, s2, rfl, hl1, hw1, g2⟩ := matchRx_pow_inv _ _ _ _ g1
  obtain ⟨w2, s3, rfl, hl2, hw2, g3⟩ := matchRx_upTo_inv _ _ _ _ g2
  rw [matchRx_seq, matchRx_opt] at g3
  have hmid : ∃ w3 s4, s3 = w3 ++ s4 ∧ w3.length ≤ 1 ∧ (∀ c ∈ w3, isAlnumHyphen c = true) ∧
      matchRx (Rx.seq (Rx.lit '.') (Rx.seq (Rx.atLeast (Rx.cls isAlpha) 2)
        (Rx.opt (Rx.seq (Rx.lit '/') (Rx.star (Rx.cls isNotNewline))))))
        (fun r => r.isEmpty) s4 = true := by
    rw [Bool.or_eq_true] at g3
    rcases g3 with g | g
    · obtain ⟨c, s4, rfl, hc, g'⟩ := matchRx_cls_inv _ _ _ g
      exact ⟨[c], s4, rfl, by simp, by simpa using isAlnumHyphen_of_isAlnum c hc, g'⟩
    · exact ⟨[], s3, rfl, by simp, by simp, g⟩
  obtain ⟨w3, s4, rfl, hl3, hw3, g4⟩ := hmid
  rw [matchRx_seq] at g4
  obtain ⟨s5, rfl, g5⟩ := matchRx_lit_inv '.' (by decide) (by decide) _ _ g4
  rw [matchRx_seq, Rx.atLeast, matchRx_seq] at g5
  obtain ⟨t1, s6, rfl, hlt, ht1, g6⟩ := matchRx_pow_inv _ _ _ _ g5
  obtain ⟨t2, s7, rfl, ht2, g7⟩ := matchStar_cls_inv _ _ _ _ g6
  have hpath : IsPath s7 := by
    rw [matchRx_opt, Bool.or_eq_true] at g7
    rcases g7 with g | g
    · rw [matchRx_seq] at g
      obtain ⟨r, rfl, _⟩ := matchRx_lit_inv '/' (by decide) (by decide) _ _ g
      exact Or.inr ⟨r, rfl⟩
    · left
      cases s7 with
      | nil => rfl
      | cons a l => cases g
  refine ⟨c0 :: (w1 ++ w2 ++ w3), t1 ++ t2, s7, by simp, by simp, ?_, ?_, ?_, ?_, ?_, hpath⟩
  · simp only [List.length_cons, List.length_append]
    omega
  · intro c hc
    simp only [List.mem_cons, List.mem_append] at hc
    rcases hc with rfl | (hc | hc) | hc
    · exact isAlnumHyphen_of_isAlnum _ hc0
    · exact hw1 c hc
    · exact hw2 c hc
    · exact hw3 c hc
  · intro e
    simp only [List.head?_cons, Option.some.injEq] at e
    subst e
    revert hc0
    decide
  · simp only [List.length_append]
    omega
  · intro c hc
    rcases List.mem_append.1 hc with hc | hc
    · exact ht1 c hc
    · exact ht2 c hc

/-- C8 (amended): a valid string without `"://"` consists of a label of 1 to
63 alphanumeric or hyphen characters that does not start with a hyphen, then
`'.'`, then a top-level label of at least 2 alphabetic characters, optionally
followed by `'/'` and any characters. -/
theorem bare_domain_of_valid (s : List Char) (hsep : ¬ "://".toList <:+: s)
    (hv : Java_com_nan_webwrapper_NativeHelper_validateUrlNative (some s) = true) :
    AcceptedBareDomain s := by
  rw [validate_iff] at hv
  rcases hv.2 with h | h
  · unfold regex_match urlPattern at h
    rw [matchRx_alt, Bool.or_eq_true] at h
    rcases h with h | h
    · exact absurd (sep_of_schemePattern s h) hsep
    · exact accepted_of_domainPattern s h
  · exact absurd (sep_of_startsWithProtocol s h) hsep

/-- C8 (amended), at a valid string whose label ends with a hyphen. -/
theorem bare_domain_of_valid_witness : AcceptedBareDomain "a-.com".toList :=
  bare_domain_of_valid "a-.com".toList (by decide) (by decide)

/-- C8 as stated fails: `a-.com` holds no `"://"` and is valid, and its label
`a-` ends with a hyphen. -/
theorem bare_domain_of_valid_counterexample :
    ¬ "://".toList <:+: "a-.com".toList ∧
    Java_com_nan_webwrapper_NativeHelper_validateUrlNative (some "a-.com".toList) = true ∧
    ¬ SpecBareDomain "a-.com".toList := by
  refine ⟨by decide, by decide, ?_⟩
  rintro ⟨label, tld, rest, hs, _, _, hch, _, hlast, _⟩
  rcases label with _ | ⟨x, _ | ⟨y, _ | ⟨z, label⟩⟩⟩
  · simp [String.toList] at hs
  · simp [String.toList] at hs
  · simp only [String.toList, List.cons_append, List.nil_append, List.cons.injEq] at hs
    apply hlast
    rw [← hs.2.1]
    rfl
  · simp only [String.toList, List.cons_append, List.cons.injEq] at hs
    have := hch z (by simp)
    rw [← hs.2.2.1] at this
    revert this
    decide

/-! ## Claims about `extractDomainNative` -/

theorem find_char_some (c : Char) (a r : List Char) (h : c ∉ a) :
    find (a ++ c :: r) [c] 0 = some a.length := by
  unfold find
  rw [if_pos (Nat.zero_le _), List.drop_zero, findAux_char_some c a r 0 h, Nat.zero_add]

theorem find_char_none (c : Char) (l : List Char) (h : c ∉ l) : find l [c] 0 = none := by
  unfold find
  rw [if_pos (Nat.zero_le _), List.drop_zero, findAux_char_none c l 0 h]

/-- A list holding `c` splits at the first `c`. -/
theorem first_split (c : Char) (l : List Char) (h : c ∈ l) :
    ∃ a r, l = a ++ c :: r ∧ c ∉ a := by
  induction l with
  | nil => simp at h
  | cons x l ih =>
    by_cases hx : x = c
    · exact ⟨[], l, by simp [hx], by simp⟩
    · have hc : c ∈ l := by
        rcases List.mem_cons.1 h with e | e
        · exact absurd e.symm hx
        · exact e
      obtain ⟨a, r, hl, ha⟩ := ih hc
      refine ⟨x :: a, r, by simp [hl], ?_⟩
      intro hm
      rcases List.mem_cons.1 hm with e | e
      · exact hx e.symm
      · exact ha e

/-- C9: `extract_domain` strips scheme, port and path and keeps the letter
case: for a scheme `s` without `"://"` and a host `h` without `'/'` and `':'`,
the domain of `s ++ "://" ++ h ++ ":" ++ port ++ "/" ++ path` is `h`. -/
theorem extract_domain_strips (s h port path : List Char) (hs : ¬ "://".toList <:+: s)
    (h1 : '/' ∉ h) (h2 : ':' ∉ h) :
    Java_com_nan_webwrapper_NativeHelper_extractDomainNative
        (some (s ++ "://".toList ++ (h ++ ':' :: (port ++ '/' :: path))))
      = Except.ok (some h) := by
  obtain ⟨q1, q2, hq, hq1⟩ := first_split '/' (port ++ '/' :: path) (by simp)
  have hlen : (s ++ "://".toList).length = s.length + 3 := by simp
  have hle : s.length + 3 ≤ (s ++ "://".toList ++ (h ++ ':' :: (q1 ++ '/' :: q2))).length := by
    rw [List.length_append, hlen]
    omega
  have hd : (s ++ "://".toList ++ (h ++ ':' :: (q1 ++ '/' :: q2))).drop (s.length + 3)
      = (h ++ ':' :: q1) ++ '/' :: q2 := by
    rw [List.drop_left' hlen]
    simp
  have hno : '/' ∉ h ++ ':' :: q1 := by
    intro hm
    rcases List.mem_append.1 hm with e | e
    · exact h1 e
    · rcases List.mem_cons.1 e with e | e
      · exact absurd e (by decide)
      · exact hq1 e
  have hle2 : 0 ≤ ((h ++ ':' :: q1) ++ '/' :: q2).length := Nat.zero_le _
  have hle3 : 0 ≤ (h ++ ':' :: q1).length := Nat.zero_le _
  unfold Java_com_nan_webwrapper_NativeHelper_extractDomainNative
  rw [hq]
  simp only [find_sep s _ hs, substr, if_pos hle, hd, bind, Except.bind,
    find_char_some '/' (h ++ ':' :: q1) q2 hno, if_pos hle2, List.drop_zero,
    List.take_left' rfl, find_char_some ':' h q1 h2, if_pos hle3]

/-- C9, at the input of the specification. -/
theorem extract_domain_strips_witness :
    Java_com_nan_webwrapper_NativeHelper_extractDomainNative
        (some "https://Example.COM:8080/a/b".toList)
      = Except.ok (some "Example.COM".toList) :=
  extract_domain_strips "https".toList "Example.COM".toList "8080".toList "a/b".toList
    (by decide) (by decide) (by decide)

/-- C10: `extract_domain` returns a string that holds neither `'/'` nor `':'`
unchanged. -/
theorem extract_domain_degenerate (s : List Char) (h1 : '/' ∉ s) (h2 : ':' ∉ s) :
    Java_com_nan_webwrapper_NativeHelper_extractDomainNative (some s)
      = Except.ok (some s) := by
  have hsep : find s "://".toList 0 = none := by
    rw [find_eq_none_iff _ (by decide)]
    rintro ⟨u, v, huv⟩
    apply h2
    rw [← huv]
    simp [String.toList]
  unfold Java_com_nan_webwrapper_NativeHelper_extractDomainNative
  simp only [hsep, bind, Except.bind, find_char_none '/' s h1, find_char_none ':' s h2]

/-- C10, at a host name. -/
theorem extract_domain_degenerate_witness :
    Java_com_nan_webwrapper_NativeHelper_extractDomainNative (some "localhost".toList)
      = Except.ok (some "localhost".toList) :=
  extract_domain_degenerate "localhost".toList (by decide) (by decide)

/-! ## The shape of an extracted domain -/

theorem cutAt_eq (c : Char) (l : List Char) :
    (match find l [c] 0 with
      | some p => substr l 0 (some p)
      | none => Except.ok l) = Except.ok (cutAt c l) := by
  by_cases hc : c ∈ l
  · obtain ⟨a, r, rfl, ha⟩ := first_split c l hc
    rw [find_char_some c a r ha]
    have ht : cutAt c (a ++ c :: r) = a := by
      unfold cutAt
      rw [List.takeWhile_append_of_pos (fun x hx => by
        simp only [bne_iff_ne, ne_eq]
        intro e
        exact ha (e ▸ hx))]
      simp
    simp only [substr, if_pos (Nat.zero_le _), List.drop_zero, List.take_left' rfl, ht]
  · rw [find_char_none c l hc]
    have ht : cutAt c l = l := by
      unfold cutAt
      rw [List.takeWhile_eq_self_iff]
      intro x hx
      simp only [bne_iff_ne, ne_eq]
      intro e
      exact hc (e ▸ hx)
    rw [ht]

theorem stripScheme_eq (x : List Char) :
    (match find x "://".toList 0 with
      | some protocolEnd => substr x (protocolEnd + 3) none
      | none => Except.ok x) = Except.ok (stripScheme x) := by
  unfold stripScheme
  cases hf : find x "://".toList 0 with
  | none => rfl
  | some j =>
    have hj := hf
    unfold find at hj
    rw [if_pos (Nat.zero_le _), List.drop_zero] at hj
    obtain ⟨a, r, hx, hja, _⟩ := findAux_eq_some "://".toList (by decide) x 0 j hj
    have hle : j + 3 ≤ x.length := by
      rw [hx]
      simp only [List.length_append, String.toList, List.length_cons, List.length_nil]
      omega
    simp only [substr, if_pos hle]

/-- The result of `extractDomainNative` on a non-null string, in closed form. -/
theorem extract_eq (x : List Char) :
    Java_com_nan_webwrapper_NativeHelper_extractDomainNative (some x)
      = Except.ok (some (cutAt ':' (cutAt '/' (stripScheme x)))) := by
  unfold Java_com_nan_webwrapper_NativeHelper_extractDomainNative
  simp only [stripScheme_eq, bind, Except.bind, cutAt_eq]

theorem not_mem_cutAt (c : Char) (l : List Char) : c ∉ cutAt c l := by
  intro h
  have := List.mem_takeWhile_imp h
  simp at this

theorem cutAt_isPrefix (c : Char) (l : List Char) : cutAt c l <+: l :=
  List.takeWhile_prefix _

theorem stripScheme_isSuffix (x : List Char) : stripScheme x <:+ x := by
  unfold stripScheme
  cases find x "://".toList 0 with
  | none => exact List.suffix_refl x
  | some j => exact List.drop_suffix _ _

theorem cutAt_of_not_mem (c : Char) (l : List Char) (h : c ∉ l) : cutAt c l = l := by
  unfold cutAt
  rw [List.takeWhile_eq_self_iff]
  intro x hx
  simp only [bne_iff_ne, ne_eq]
  intro e
  exact h (e ▸ hx)

theorem stripScheme_of_no_colon (l : List Char) (h : ':' ∉ l) : stripScheme l = l := by
  have hsep : find l "://".toList 0 = none := by
    rw [find_eq_none_iff _ (by decide)]
    rintro ⟨u, v, huv⟩
    apply h
    rw [← huv]
    simp [String.toList]
  unfold stripScheme
  rw [hsep]

/-! ## Null input and totality -/

/-- C11: null and empty input are answered by a sentinel, not a fault:
`is_valid(null)` and `is_valid("")` are false, and `extract_domain(null)` and
`normalize(null)` return the null reference without raising. -/
theorem null_and_empty_input :
    Java_com_nan_webwrapper_NativeHelper_validateUrlNative none = false ∧
    Java_com_nan_webwrapper_NativeHelper_validateUrlNative (some []) = false ∧
    Java_com_nan_webwrapper_NativeHelper_extractDomainNative none = Except.ok none ∧
    Java_com_nan_webwrapper_NativeHelper_normalizeUrlNative none = Except.ok none :=
  ⟨rfl, rfl, rfl, rfl⟩

/-- C12: `normalize` and `extract_domain` are total: on every input string no
`erase` or `substr` is handed a position beyond the size of the string (the
embedding would answer `out_of_range`), and a string is returned. -/
theorem normalize_extract_total (x : List Char) :
    (∃ y, Java_com_nan_webwrapper_NativeHelper_normalizeUrlNative (some x)
      = Except.ok (some y)) ∧
    (∃ d, Java_com_nan_webwrapper_NativeHelper_extractDomainNative (some x)
      = Except.ok (some d)) := by
  constructor
  · by_cases hx : x = []
    · subst hx
      exact ⟨[], rfl⟩
    · obtain ⟨y, hy, _⟩ := normalize_normal_form x hx
      exact ⟨y, hy⟩
  · exact ⟨_, extract_eq x⟩

/-- C17: the result of `extract_domain` holds neither `'/'` nor `':'`, is a
contiguous part of the input, and is mapped to itself by `extract_domain`. -/
theorem extract_domain_clean (x : List Char) :
    ∃ d, Java_com_nan_webwrapper_NativeHelper_extractDomainNative (some x)
        = Except.ok (some d) ∧
      '/' ∉ d ∧ ':' ∉ d ∧ d <:+: x ∧
      Java_com_nan_webwrapper_NativeHelper_extractDomainNative (some d)
        = Except.ok (some d) := by
  have hslash : '/' ∉ cutAt ':' (cutAt '/' (stripScheme x)) := fun h =>
    not_mem_cutAt '/' (stripScheme x) ((cutAt_isPrefix ':' _).subset h)
  have hcolon : ':' ∉ cutAt ':' (cutAt '/' (stripScheme x)) := not_mem_cutAt ':' _
  refine ⟨_, extract_eq x, hslash, hcolon, ?_, ?_⟩
  · exact (((cutAt_isPrefix ':' _).trans (cutAt_isPrefix '/' _)).isInfix).trans
      (stripScheme_isSuffix x).isInfix
  · rw [extract_eq, stripScheme_of_no_colon _ hcolon, cutAt_of_not_mem _ _ hslash,
      cutAt_of_not_mem _ _ hcolon]

/-! ## What the validator rejects -/

theorem not_trim_of_isAlnum (c : Char) (h : isAlnum c = true) : c ∉ trimChars := by
  intro hc
  simp only [trimChars, String.toList, List.mem_cons, List.mem_singleton, List.not_mem_nil,
    or_false] at hc
  rcases hc with rfl | rfl | rfl | rfl <;> revert h <;> decide

/-- C14: validation does not trim: a string whose first character is a space,
tab, newline or carriage return is not valid, whatever follows. -/
theorem invalid_of_leading_trim_char (c : Char) (rest : List Char) (hc : c ∈ trimChars) :
    Java_com_nan_webwrapper_NativeHelper_validateUrlNative (some (c :: rest)) = false := by
  have htc : isTrimChar c = true := by simpa [isTrimChar] using hc
  rw [← Bool.not_eq_true, validate_iff]
  rintro ⟨_, h | h⟩
  · unfold regex_match urlPattern at h
    rw [matchRx_alt, Bool.or_eq_true] at h
    rcases h with h | h
    · rw [schemePattern_unfold, matchRx_seq, matchRx_lit_cons, Bool.and_eq_true,
        beq_iff_eq] at h
      have := isTrimChar_tolower c
      rw [h.1, htc] at this
      revert this
      decide
    · rw [domainPattern_unfold, matchRx_seq, matchRx_cls_cons, Bool.and_eq_true] at h
      exact not_trim_of_isAlnum c h.1 hc
  · simp only [startsWithProtocol, Bool.or_eq_true, decide_eq_true_eq] at h
    have hhead : ∀ pat : List Char, pat.head? = some 'h' ∨ pat.head? = some 'f' →
        pat ≠ [] → find (c :: rest) pat 0 = some 0 → False := by
      intro pat hp hne hf
      obtain ⟨r, hr⟩ := starts_of_find_zero (c :: rest) pat hne hf
      cases pat with
      | nil => exact hne rfl
      | cons a pat =>
        simp only [List.cons_append, List.cons.injEq] at hr
        simp only [List.head?_cons, Option.some.injEq] at hp
        rw [hr.1] at hp
        rcases hp with rfl | rfl <;> revert hc <;> decide
    rcases h with ((h | h) | h) | h
    · exact hhead "http://".toList (Or.inl rfl) (by decide) h
    · exact hhead "https://".toList (Or.inl rfl) (by decide) h
    · exact hhead "file://".toList (Or.inr rfl) (by decide) h
    · exact hhead "ftp://".toList (Or.inr rfl) (by decide) h

/-- C14, at the input of the specification: a leading space makes
`example.com` invalid. -/
theorem invalid_of_leading_trim_char_witness :
    Java_com_nan_webwrapper_NativeHelper_validateUrlNative (some " example.com".toList) = false ∧
    Java_com_nan_webwrapper_NativeHelper_validateUrlNative (some "example.com".toList) = true :=
  ⟨invalid_of_leading_trim_char ' ' "example.com".toList (by decide), by decide⟩

/-- C15: a string that holds no `'.'` and no `"://"` is not valid. -/
theorem invalid_of_no_dot_no_scheme (s : List Char) (hdot : '.' ∉ s)
    (hsep : ¬ "://".toList <:+: s) :
    Java_com_nan_webwrapper_NativeHelper_validateUrlNative (some s) = false := by
  rw [← Bool.not_eq_true, validate_iff]
  rintro ⟨_, h | h⟩
  · unfold regex_match urlPattern at h
    rw [matchRx_alt, Bool.or_eq_true] at h
    rcases h with h | h
    · exact hsep (sep_of_schemePattern s h)
    · obtain ⟨label, tld, rest, hs, _⟩ := accepted_of_domainPattern s h
      apply hdot
      rw [hs]
      simp
  · exact hsep (sep_of_startsWithProtocol s h)

/-- C15, at the input of the specification. -/
theorem invalid_of_no_dot_no_scheme_witness :
    Java_com_nan_webwrapper_NativeHelper_validateUrlNative (some "ex".toList) = false :=
  invalid_of_no_dot_no_scheme "ex".toList (by decide) (by decide)

/-- C19: the normal form of a non-empty string without `"://"` is valid,
whether or not the string itself is. -/
theorem valid_of_normalize_schemeless (x : List Char) (hne : x ≠ [])
    (hsep : ¬ "://".toList <:+: x) :
    ∃ y, Java_com_nan_webwrapper_NativeHelper_normalizeUrlNative (some x)
        = Except.ok (some y) ∧
      Java_com_nan_webwrapper_NativeHelper_validateUrlNative (some y) = true := by
  have htrim : ¬ "://".toList <:+: trim x := by
    intro h
    apply hsep
    have h1 : trim x <+: x.dropWhile isTrimChar := List.rdropWhile_prefix _ _
    have h2 : x.dropWhile isTrimChar <:+ x := List.dropWhile_suffix _
    exact (h.trans h1.isInfix).trans h2.isInfix
  have hadd : addScheme (trim x) = "https".toList ++ "://".toList ++ trim x := by
    unfold addScheme
    rw [if_pos ((find_eq_none_iff _ (by decide) _).2 htrim)]
    rfl
  obtain ⟨s, auth, path, hu, hs, ha, hp⟩ := split_of_find _ (addScheme_find (trim x))
  have h5 : s.length = 5 := by
    have e1 := find_sep s (auth ++ path) hs
    have e2 := find_sep "https".toList (trim x) (by decide)
    rw [← hu, hadd, e2] at e1
    exact (Option.some.inj e1).symm
  have hs5 : s = "https".toList := by
    have := congrArg (List.take 5) hu
    have t1 : List.take 5 ("https".toList ++ ("://".toList ++ trim x)) = "https".toList :=
      List.take_left' rfl
    rw [hadd, List.append_assoc, List.append_assoc, t1, List.take_left' h5] at this
    exact this.symm
  subst hs5
  refine ⟨"https".toList ++ "://".toList ++ (auth.map tolower ++ path), ?_, ?_⟩
  · rw [normalize_eq x hne, hu, lowercaseDomain_split _ auth path hs ha hp]
    rfl
  · rw [validate_iff]
    refine ⟨by simp [String.toList], Or.inr ?_⟩
    have hf := find_at_head "https://".toList (auth.map tolower ++ path) (by decide)
    have e : "https".toList ++ "://".toList ++ (auth.map tolower ++ path)
        = "https://".toList ++ (auth.map tolower ++ path) := rfl
    unfold startsWithProtocol
    rw [e, hf]
    simp only [decide_True, Bool.or_true, Bool.true_or]

/-- C19, at an invalid string and at a blank string. -/
theorem valid_of_normalize_schemeless_witness :
    (∃ y, Java_com_nan_webwrapper_NativeHelper_normalizeUrlNative (some "ex".toList)
        = Except.ok (some y) ∧
      Java_com_nan_webwrapper_NativeHelper_validateUrlNative (some y) = true) ∧
    (∃ y, Java_com_nan_webwrapper_NativeHelper_normalizeUrlNative (some "   ".toList)
        = Except.ok (some y) ∧
      Java_com_nan_webwrapper_NativeHelper_validateUrlNative (some y) = true) :=
  ⟨valid_of_normalize_schemeless "ex".toList (by decide) (by decide),
    valid_of_normalize_schemeless "   ".toList (by decide) (by decide)⟩

/-! ## Normalisation against trimming and extraction -/

theorem rdropWhile_append_all (p : Char → Bool) (l w : List Char) (hw : ∀ c ∈ w, p c = true) :
    (l ++ w).rdropWhile p = l.rdropWhile p := by
  induction w using List.reverseRecOn with
  | nil => rw [List.append_nil]
  | append_singleton w a ih =>
    rw [← List.append_assoc, List.rdropWhile_concat_pos _ _ _ (hw a (by simp))]
    exact ih (fun c hc => hw c (by simp [hc]))

/-- Padding with trim characters does not change what trimming leaves. -/
theorem trim_padding (w1 t w2 : List Char) (h1 : ∀ c ∈ w1, isTrimChar c = true)
    (h2 : ∀ c ∈ w2, isTrimChar c = true) : trim (w1 ++ t ++ w2) = trim t := by
  unfold trim
  rw [List.append_assoc, List.dropWhile_append_of_pos h1, List.dropWhile_append]
  by_cases he : (t.dropWhile isTrimChar).isEmpty = true
  · rw [if_pos he]
    have h3 : w2.dropWhile isTrimChar = [] := by
      rw [List.dropWhile_eq_nil_iff]
      exact h2
    rw [h3, List.isEmpty_iff.1 he]
  · rw [if_neg he]
    exact rdropWhile_append_all isTrimChar _ w2 h2

theorem nonTrimCount_dropWhile (l : List Char) :
    nonTrimCount (l.dropWhile isTrimChar) = nonTrimCount l := by
  induction l with
  | nil => rfl
  | cons a l ih =>
    by_cases ha : isTrimChar a = true
    · rw [List.dropWhile_cons_of_pos ha, ih]
      unfold nonTrimCount
      rw [List.countP_cons]
      simp [ha]
    · rw [List.dropWhile_cons_of_neg ha]

theorem nonTrimCount_reverse (l : List Char) : nonTrimCount l.reverse = nonTrimCount l := by
  unfold nonTrimCount
  exact List.countP_reverse _ l

/-- Trimming removes trim characters only. -/
theorem nonTrimCount_trim (x : List Char) : nonTrimCount (trim x) = nonTrimCount x := by
  unfold trim List.rdropWhile
  rw [nonTrimCount_reverse, nonTrimCount_dropWhile, nonTrimCount_reverse,
    nonTrimCount_dropWhile]

theorem nonTrimCount_map_tolower (l : List Char) :
    nonTrimCount (l.map tolower) = nonTrimCount l := by
  induction l with
  | nil => rfl
  | cons a l ih =>
    unfold nonTrimCount at ih ⊢
    rw [List.map_cons, List.countP_cons, List.countP_cons, ih, isTrimChar_tolower]

theorem addScheme_eq (t : List Char) :
    addScheme t = if "://".toList <:+: t then t else "https://".toList ++ t := by
  unfold addScheme
  by_cases h : "://".toList <:+: t
  · rw [if_pos h, if_neg]
    rw [find_eq_none_iff _ (by decide)]
    exact fun hn => hn h
  · rw [if_neg h, if_pos ((find_eq_none_iff _ (by decide) _).2 h)]

/-- Up to the case of letters, the normal form of a non-empty string is the
trimmed string, with `https://` in front when it holds no `"://"`. -/
theorem normalize_keeps (x : List Char) (hx : x ≠ []) :
    ∃ y, Java_com_nan_webwrapper_NativeHelper_normalizeUrlNative (some x)
        = Except.ok (some y) ∧
      y.map tolower =
        (if "://".toList <:+: trim x then trim x else "https://".toList ++ trim x).map
          tolower := by
  obtain ⟨s, auth, path, hu, hs, ha, hp⟩ := split_of_find _ (addScheme_find (trim x))
  refine ⟨s ++ "://".toList ++ (auth.map tolower ++ path), ?_, ?_⟩
  · rw [normalize_eq x hx, hu, lowercaseDomain_split s auth path hs ha hp]
    rfl
  · rw [← addScheme_eq, hu]
    simp only [List.map_append, map_tolower_idem]

/-- The normal form of a non-empty string holds the characters outside the
trim set of the string, and eight more when the scheme is added. -/
theorem normalize_count (x : List Char) (hx : x ≠ []) :
    ∃ y, Java_com_nan_webwrapper_NativeHelper_normalizeUrlNative (some x)
        = Except.ok (some y) ∧
      (nonTrimCount y = nonTrimCount x ∨ nonTrimCount y = nonTrimCount x + 8) := by
  obtain ⟨y, hy, hm⟩ := normalize_keeps x hx
  refine ⟨y, hy, ?_⟩
  have hc := congrArg nonTrimCount hm
  rw [nonTrimCount_map_tolower, nonTrimCount_map_tolower] at hc
  by_cases h : "://".toList <:+: trim x
  · rw [if_pos h, nonTrimCount_trim] at hc
    exact Or.inl hc
  · rw [if_neg h] at hc
    right
    rw [hc]
    unfold nonTrimCount
    rw [List.countP_append]
    have h8 : List.countP (fun c => !isTrimChar c) "https://".toList = 8 := by decide
    have ht := nonTrimCount_trim x
    unfold nonTrimCount at ht
    rw [h8, ht]
    omega

/-- One more character outside the trim set, at either end, changes the
normal form. -/
theorem normalize_sensitive (t u : List Char)
    (hu : u ≠ []) (hc : nonTrimCount u = nonTrimCount t + 1) :
    Java_com_nan_webwrapper_NativeHelper_normalizeUrlNative (some u)
      ≠ Java_com_nan_webwrapper_NativeHelper_normalizeUrlNative (some t) := by
  obtain ⟨y1, h1, hn1⟩ := normalize_count u hu
  intro he
  by_cases ht : t = []
  · subst ht
    obtain ⟨y, hy, hne, _⟩ := normalize_normal_form u hu
    rw [hy] at he
    have e : Except.ok (some y)
        = (Except.ok (some []) : Except CppError (Option (List Char))) := he
    injection e with e1
    injection e1 with e2
    exact hne e2
  · obtain ⟨y2, h2, hn2⟩ := normalize_count t ht
    rw [h1, h2] at he
    injection he with e1
    injection e1 with e2
    subst e2
    omega

/-- C16: `normalize` does not see surrounding trim characters, and sees every
other surrounding character.  For non-empty `t` and runs `w1`, `w2` of space,
tab, newline and carriage return, `normalize(w1 ++ t ++ w2) = normalize(t)`.
For every character `c` outside these four and every `t`, putting `c` before
or after `t` changes the result.  What is returned is, up to the case of
letters, the trimmed input (with `https://` in front when it holds no
`"://"`), so nothing but the four characters is trimmed; form feed and
vertical tab around `foo.com` stay in the result. -/
theorem normalize_ignores_padding :
    (∀ w1 t w2 : List Char, t ≠ [] → (∀ c ∈ w1, c ∈ trimChars) → (∀ c ∈ w2, c ∈ trimChars) →
      Java_com_nan_webwrapper_NativeHelper_normalizeUrlNative (some (w1 ++ t ++ w2))
        = Java_com_nan_webwrapper_NativeHelper_normalizeUrlNative (some t)) ∧
    (∀ (c : Char) (t : List Char), c ∉ trimChars →
      Java_com_nan_webwrapper_NativeHelper_normalizeUrlNative (some (c :: t))
        ≠ Java_com_nan_webwrapper_NativeHelper_normalizeUrlNative (some t) ∧
      Java_com_nan_webwrapper_NativeHelper_normalizeUrlNative (some (t ++ [c]))
        ≠ Java_com_nan_webwrapper_NativeHelper_normalizeUrlNative (some t)) ∧
    (∀ x : List Char, x ≠ [] →
      ∃ y, Java_com_nan_webwrapper_NativeHelper_normalizeUrlNative (some x)
          = Except.ok (some y) ∧
        y.map tolower =
          (if "://".toList <:+: trim x then trim x else "https://".toList ++ trim x).map
            tolower) ∧
    Java_com_nan_webwrapper_NativeHelper_normalizeUrlNative (some "\x0cfoo.com\x0b".toList)
      = Except.ok (some "https://\x0cfoo.com\x0b".toList) ∧
    Java_com_nan_webwrapper_NativeHelper_normalizeUrlNative (some "\x0bfoo.com\x0c".toList)
      = Except.ok (some "https://\x0bfoo.com\x0c".toList) ∧
    Java_com_nan_webwrapper_NativeHelper_normalizeUrlNative (some "foo.com".toList)
      = Except.ok (some "https://foo.com".toList) := by
  refine ⟨?_, ?_, normalize_keeps, rfl, rfl, rfl⟩
  · intro w1 t w2 hne h1 h2
    have hx : w1 ++ t ++ w2 ≠ [] := by
      intro e
      apply hne
      have := congrArg List.length e
      simp only [List.length_append, List.length_nil] at this
      apply List.eq_nil_of_length_eq_zero
      omega
    rw [normalize_eq _ hx, normalize_eq _ hne,
      trim_padding w1 t w2 (fun c hc => by simpa [isTrimChar] using h1 c hc)
        (fun c hc => by simpa [isTrimChar] using h2 c hc)]
  · intro c t hc
    have hb : (!isTrimChar c) = true := by simpa [isTrimChar] using hc
    constructor
    · apply normalize_sensitive t (c :: t) (List.cons_ne_nil c t)
      unfold nonTrimCount
      rw [List.countP_cons, if_pos hb]
    · apply normalize_sensitive t (t ++ [c]) (by simp)
      unfold nonTrimCount
      rw [List.countP_append, List.countP_cons, if_pos hb]
      rfl

/-- C16, at the padded input of the specification, and at a leading form feed
and a trailing vertical tab. -/
theorem normalize_ignores_padding_witness :
    Java_com_nan_webwrapper_NativeHelper_normalizeUrlNative
        (some (" \t".toList ++ "Example.COM/Path".toList ++ "\r\n".toList))
      = Java_com_nan_webwrapper_NativeHelper_normalizeUrlNative
        (some "Example.COM/Path".toList) ∧
    Java_com_nan_webwrapper_NativeHelper_normalizeUrlNative (some ('\x0c' :: "foo.com".toList))
      ≠ Java_com_nan_webwrapper_NativeHelper_normalizeUrlNative (some "foo.com".toList) ∧
    Java_com_nan_webwrapper_NativeHelper_normalizeUrlNative (some ("foo.com".toList ++ ['\x0b']))
      ≠ Java_com_nan_webwrapper_NativeHelper_normalizeUrlNative (some "foo.com".toList) :=
  ⟨normalize_ignores_padding.1 " \t".toList "Example.COM/Path".toList "\r\n".toList
      (by decide) (by decide) (by decide),
    (normalize_ignores_padding.2.1 '\x0c' "foo.com".toList (by decide)).1,
    (normalize_ignores_padding.2.1 '\x0b' "foo.com".toList (by decide)).2⟩

theorem stripScheme_sep (s r : List Char) (hs : ¬ "://".toList <:+: s) :
    stripScheme (s ++ "://".toList ++ r) = r := by
  unfold stripScheme
  rw [find_sep s r hs]
  exact List.drop_left' (by simp)

theorem cutAt_slash_path (auth path : List Char) (ha : '/' ∉ auth) (hp : IsPath path) :
    cutAt '/' (auth ++ path) = auth := by
  rcases hp with rfl | ⟨p, rfl⟩
  · rw [List.append_nil]
    exact cutAt_of_not_mem '/' auth ha
  · unfold cutAt
    rw [List.takeWhile_append_of_pos (fun x hx => by
      simp only [bne_iff_ne, ne_eq]
      intro e
      exact ha (e ▸ hx))]
    simp

theorem cutAt_map_tolower (c : Char) (hc : ¬ ('a' ≤ c ∧ c ≤ 'z')) (hc2 : tolower c = c)
    (l : List Char) : cutAt c (l.map tolower) = (cutAt c l).map tolower := by
  unfold cutAt
  induction l with
  | nil => rfl
  | cons a l ih =>
    by_cases ha : a = c
    · subst ha
      simp [List.takeWhile_cons, hc2]
    · have hne : tolower a ≠ c := fun e => ha (tolower_eq_fixed a c hc e)
      simp only [List.map_cons, List.takeWhile_cons, bne_iff_ne, ne_eq, hne, not_false_eq_true,
        ha, if_true, decide_True]
      rw [← ih]

theorem tolower_not_upper (c : Char) : ¬ ('A' ≤ tolower c ∧ tolower c ≤ 'Z') := by
  by_cases hc : 'A' ≤ c ∧ c ≤ 'Z'
  · obtain ⟨n, h1, h2, rfl⟩ := upper_cases c hc
    interval_cases n <;> decide
  · simp [tolower, hc]

/-- What `extract_domain` strips from the trimmed input is the scheme that
`normalize` keeps or adds. -/
theorem stripScheme_of_addScheme (t s auth path : List Char)
    (hu : addScheme t = s ++ "://".toList ++ (auth ++ path)) (hs : ¬ "://".toList <:+: s) :
    stripScheme t = auth ++ path := by
  by_cases hf : find t "://".toList 0 = none
  · have hadd : addScheme t = "https".toList ++ "://".toList ++ t := by
      unfold addScheme
      rw [if_pos hf]
      rfl
    have h5 : s.length = 5 := by
      have e1 := find_sep s (auth ++ path) hs
      have e2 := find_sep "https".toList t (by decide)
      rw [← hu, hadd, e2] at e1
      exact (Option.some.inj e1).symm
    have hd := congrArg (List.drop 8) hu
    have t1 : List.drop 8 ("https".toList ++ "://".toList ++ t) = t := List.drop_left' rfl
    have t2 : List.drop 8 (s ++ "://".toList ++ (auth ++ path)) = auth ++ path :=
      List.drop_left' (by simp [h5])
    rw [hadd, t1, t2] at hd
    unfold stripScheme
    rw [hf]
    exact hd
  · have hadd : addScheme t = t := by
      unfold addScheme
      rw [if_neg hf]
    rw [hadd] at hu
    rw [hu]
    exact stripScheme_sep s _ hs

/-- C18: `normalize` and `extract_domain` agree on the authority: the domain
extracted from `normalize(x)` is the lower-cased domain extracted from the
trimmed `x`, and it holds no upper-case letter `A`..`Z`. -/
theorem extract_of_normalize (x : List Char) :
    ∃ n d, Java_com_nan_webwrapper_NativeHelper_normalizeUrlNative (some x)
        = Except.ok (some n) ∧
      Java_com_nan_webwrapper_NativeHelper_extractDomainNative (some (trim x))
        = Except.ok (some d) ∧
      Java_com_nan_webwrapper_NativeHelper_extractDomainNative (some n)
        = Except.ok (some (d.map tolower)) ∧
      ∀ c ∈ d.map tolower, ¬ ('A' ≤ c ∧ c ≤ 'Z') := by
  have hup : ∀ d : List Char, ∀ c ∈ d.map tolower, ¬ ('A' ≤ c ∧ c ≤ 'Z') := by
    intro d c hc
    obtain ⟨a, _, rfl⟩ := List.mem_map.1 hc
    exact tolower_not_upper a
  by_cases hx : x = []
  · subst hx
    exact ⟨[], [], rfl, rfl, rfl, hup []⟩
  · obtain ⟨s, auth, path, hu, hs, ha, hp⟩ := split_of_find _ (addScheme_find (trim x))
    refine ⟨s ++ "://".toList ++ (auth.map tolower ++ path), cutAt ':' auth, ?_, ?_, ?_,
      hup _⟩
    · rw [normalize_eq x hx, hu, lowercaseDomain_split s auth path hs ha hp]
      rfl
    · rw [extract_eq, stripScheme_of_addScheme (trim x) s auth path hu hs,
        cutAt_slash_path auth path ha hp]
    · rw [extract_eq, stripScheme_sep s _ hs,
        cutAt_slash_path _ path (slash_not_mem_map_tolower auth ha) hp,
        cutAt_map_tolower ':' (by decide) (by decide)]

/-! ## Facts about the pixel loop -/

/-- A loop whose body keeps an invariant runs to completion and ends in it. -/
theorem forLoop_inv {σ : Type} (P : Nat → σ → Prop) (n : Nat)
    (body : Int → σ → Except Fault σ) (s0 : σ) (h0 : P 0 s0)
    (hstep : ∀ i s, i < n → P i s → ∃ s', body (Int.ofNat i) s = Except.ok s' ∧ P (i + 1) s') :
    ∃ s', forLoop (Int.ofNat n) body s0 = Except.ok s' ∧ P n s' := by
  have key : ∀ m, m ≤ n →
      ∃ s', (List.range m).foldlM (fun s i => body (Int.ofNat i) s) s0 = Except.ok s' ∧
        P m s' := by
    intro m
    induction m with
    | zero => exact fun _ => ⟨s0, rfl, h0⟩
    | succ m ih =>
      intro hm
      obtain ⟨s1, h1, hp1⟩ := ih (Nat.le_of_succ_le hm)
      obtain ⟨s2, h2, hp2⟩ := hstep m s1 hm hp1
      refine ⟨s2, ?_, hp2⟩
      rw [List.range_succ, List.foldlM_append, h1]
      simp only [bind, Except.bind, List.foldlM_cons, List.foldlM_nil, h2]
      rfl
  exact key n (Nat.le_refl n)

theorem toInt_of_lt (w : Nat) (h : w < 2 ^ 31) : toInt w = Int.ofNat w := by
  have h1 : w % 2 ^ 32 = w := Nat.mod_eq_of_lt (by omega)
  unfold toInt
  rw [h1, if_pos h]

theorem int32_ofNat (n : Nat) (h : n < 2 ^ 31) : int32 (Int.ofNat n) = Except.ok (Int.ofNat n) := by
  unfold int32
  rw [if_pos]
  constructor
  · simp only [Int.ofNat_eq_coe]
    omega
  · simp only [Int.ofNat_eq_coe]
    omega

theorem mulInt_ofNat (a b : Nat) (h : a * b < 2 ^ 31) :
    mulInt (Int.ofNat a) (Int.ofNat b) = Except.ok (Int.ofNat (a * b)) := by
  unfold mulInt
  rw [← int32_ofNat (a * b) h]
  simp

theorem addInt_ofNat (a b : Nat) (h : a + b < 2 ^ 31) :
    addInt (Int.ofNat a) (Int.ofNat b) = Except.ok (Int.ofNat (a + b)) := by
  unfold addInt
  rw [← int32_ofNat (a + b) h]
  simp

theorem divInt_ofNat (a b : Nat) (hb : 0 < b) (h : a < 2 ^ 31) :
    divInt (Int.ofNat a) (Int.ofNat b) = Except.ok (Int.ofNat (a / b)) := by
  unfold divInt
  rw [if_neg (by simp only [Int.ofNat_eq_coe]; omega)]
  have hd : a / b < 2 ^ 31 := Nat.lt_of_le_of_lt (Nat.div_le_self a b) h
  rw [← int32_ofNat (a / b) hd]
  rfl

theorem readPixel_ofNat (buf : List Nat) (i v : Nat) (h : buf[i]? = some v) :
    readPixel buf (Int.ofNat i) = Except.ok v := by
  unfold readPixel
  rw [if_pos (by simp)]
  simp only [Int.ofNat_eq_coe, Int.toNat_ofNat, h]

theorem writePixel_ofNat (buf : List Nat) (i v : Nat) (h : i < buf.length) :
    writePixel buf (Int.ofNat i) v = Except.ok (buf.set i v) := by
  unfold writePixel
  rw [if_pos ⟨by simp, by simpa using h⟩]
  rfl

/-- The index of pixel `(x, y)` in a `w × h` image is below `w * h`. -/
theorem index_lt (x y w h : Nat) (hx : x < w) (hy : y < h) : y * w + x < w * h := by
  have h1 : (y + 1) * w ≤ h * w := Nat.mul_le_mul_right w hy
  have h2 : (y + 1) * w = y * w + w := by ring
  have h3 : h * w = w * h := Nat.mul_comm h w
  omega

/-- A coordinate below `d` is scaled to a coordinate below `s`. -/
theorem scale_lt (x s d : Nat) (hx : x < d) (hs : 0 < s) : x * s / d < s := by
  have hd : 0 < d := by omega
  rw [Nat.div_lt_iff_lt_mul hd, Nat.mul_comm s d]
  exact Nat.mul_lt_mul_of_pos_right hx hs

theorem bind_ok {α β : Type} (a : α) (f : α → Except Fault β) :
    (Except.ok a >>= f) = f a := rfl

/-- One pixel: with every index in range the body of the inner loop stores the
source pixel at `(srcX, srcY)` into the destination at `(x, y)`. -/
theorem copyPixel_ofNat (src d : List Nat) (sw sh dw dh Y y x v : Nat)
    (hx : x < dw) (hy : y < dh) (hY : Y < sh) (hsw : 0 < sw)
    (hws : dw * sw < 2 ^ 31) (hss : sw * sh < 2 ^ 31) (hdd : dw * dh < 2 ^ 31)
    (hd : dw * dh ≤ d.length) (hv : src[Y * sw + x * sw / dw]? = some v) :
    copyPixel src (Int.ofNat sw) (Int.ofNat dw) (Int.ofNat Y) (Int.ofNat y) (Int.ofNat x) d
      = Except.ok (d.set (y * dw + x) v) := by
  have hX : x * sw / dw < sw := scale_lt x sw dw hx hsw
  have h1 : x * sw < 2 ^ 31 :=
    Nat.lt_trans (Nat.mul_lt_mul_of_pos_right hx hsw) hws
  have h2 : Y * sw + x * sw / dw < sw * sh := index_lt _ Y sw sh hX hY
  have h3 : y * dw + x < dw * dh := index_lt x y dw dh hx hy
  have h4 : Y * sw < 2 ^ 31 :=
    Nat.lt_of_le_of_lt (Nat.le_add_right _ _) (Nat.lt_trans h2 hss)
  have h5 : y * dw < 2 ^ 31 :=
    Nat.lt_of_le_of_lt (Nat.le_add_right _ _) (Nat.lt_trans h3 hdd)
  unfold copyPixel
  rw [mulInt_ofNat x sw h1, bind_ok, divInt_ofNat (x * sw) dw (Nat.zero_lt_of_lt hx) h1, bind_ok,
    mulInt_ofNat Y sw h4, bind_ok, addInt_ofNat (Y * sw) (x * sw / dw) (Nat.lt_trans h2 hss),
    bind_ok, readPixel_ofNat src _ v hv, bind_ok, mulInt_ofNat y dw h5, bind_ok,
    addInt_ofNat (y * dw) x (Nat.lt_trans h3 hdd), bind_ok,
    writePixel_ofNat d _ v (Nat.lt_of_lt_of_le h3 hd)]

/-- One row: the inner loop fills row `y` of the destination from row `Y` of
the source and leaves the rows before it alone. -/
theorem copyRow (src d0 : List Nat) (sw sh dw dh Y y : Nat)
    (hy : y < dh) (hY : Y < sh) (hsw : 0 < sw)
    (hws : dw * sw < 2 ^ 31) (hss : sw * sh < 2 ^ 31) (hdd : dw * dh < 2 ^ 31)
    (hd : dw * dh ≤ d0.length) (hsrc : sw * sh ≤ src.length) :
    ∃ d, forLoop (Int.ofNat dw)
        (copyPixel src (Int.ofNat sw) (Int.ofNat dw) (Int.ofNat Y) (Int.ofNat y)) d0
        = Except.ok d ∧
      d.length = d0.length ∧
      (∀ x, x < dw → d[y * dw + x]? = src[Y * sw + x * sw / dw]?) ∧
      (∀ i, i < y * dw → d[i]? = d0[i]?) := by
  apply forLoop_inv (fun k d => d.length = d0.length ∧
      (∀ x, x < k → d[y * dw + x]? = src[Y * sw + x * sw / dw]?) ∧
      (∀ i, i < y * dw → d[i]? = d0[i]?)) dw _ d0
  · exact ⟨rfl, fun x hx => absurd hx (Nat.not_lt_zero x), fun i _ => rfl⟩
  · intro x d hx ⟨hlen, hrow, hbefore⟩
    have hX : x * sw / dw < sw := scale_lt x sw dw hx hsw
    have hidx : Y * sw + x * sw / dw < src.length :=
      Nat.lt_of_lt_of_le (index_lt _ Y sw sh hX hY) hsrc
    have hv : src[Y * sw + x * sw / dw]? = some src[Y * sw + x * sw / dw] :=
      List.getElem?_eq_getElem hidx
    have hw : y * dw + x < d.length := by
      rw [hlen]
      exact Nat.lt_of_lt_of_le (index_lt x y dw dh hx hy) hd
    refine ⟨_, copyPixel_ofNat src d sw sh dw dh Y y x _ hx hy hY hsw hws hss hdd
      (by rw [hlen]; exact hd) hv, ?_, ?_, ?_⟩
    · rw [List.length_set, hlen]
    · intro x' hx'
      by_cases he : x' = x
      · subst he
        rw [List.getElem?_set, if_pos rfl, if_pos hw, hv]
      · rw [List.getElem?_set_ne (by omega)]
        exact hrow x' (by omega)
    · intro i hi
      rw [List.getElem?_set_ne (by omega)]
      exact hbefore i hi

/-- One iteration of the outer loop is one row. -/
theorem resizeRow_ofNat (src d0 : List Nat) (sw sh dw dh y : Nat)
    (hy : y < dh) (hsw : 0 < sw) (hsh : 0 < sh)
    (hhs : dh * sh < 2 ^ 31) (hws : dw * sw < 2 ^ 31) (hss : sw * sh < 2 ^ 31)
    (hdd : dw * dh < 2 ^ 31)
    (hd : dw * dh ≤ d0.length) (hsrc : sw * sh ≤ src.length) :
    ∃ d, resizeRow src (Int.ofNat sw) (Int.ofNat sh) (Int.ofNat dw) (Int.ofNat dh)
        (Int.ofNat y) d0 = Except.ok d ∧
      d.length = d0.length ∧
      (∀ x, x < dw → d[y * dw + x]? = src[(y * sh / dh) * sw + x * sw / dw]?) ∧
      (∀ i, i < y * dw → d[i]? = d0[i]?) := by
  have h1 : y * sh < 2 ^ 31 :=
    Nat.lt_trans (Nat.mul_lt_mul_of_pos_right hy hsh) hhs
  obtain ⟨d, hrun, hrest⟩ := copyRow src d0 sw sh dw dh (y * sh / dh) y hy
    (scale_lt y sh dh hy hsh) hsw hws hss hdd hd hsrc
  refine ⟨d, ?_, hrest⟩
  unfold resizeRow
  rw [mulInt_ofNat y sh h1, bind_ok, divInt_ofNat (y * sh) dh (Nat.zero_lt_of_lt hy) h1, bind_ok]
  exact hrun

/-- The whole loop nest: every destination pixel is the source pixel it is
scaled from. -/
theorem resizeLoop (src d0 : List Nat) (sw sh dw dh : Nat) (hsw : 0 < sw) (hsh : 0 < sh)
    (hhs : dh * sh < 2 ^ 31) (hws : dw * sw < 2 ^ 31) (hss : sw * sh < 2 ^ 31)
    (hdd : dw * dh < 2 ^ 31)
    (hd : dw * dh ≤ d0.length) (hsrc : sw * sh ≤ src.length) :
    ∃ d, forLoop (Int.ofNat dh)
        (resizeRow src (Int.ofNat sw) (Int.ofNat sh) (Int.ofNat dw) (Int.ofNat dh)) d0
        = Except.ok d ∧
      d.length = d0.length ∧
      (∀ y, y < dh → ∀ x, x < dw →
        d[y * dw + x]? = src[(y * sh / dh) * sw + x * sw / dw]?) := by
  apply forLoop_inv (fun k d => d.length = d0.length ∧
      (∀ y, y < k → ∀ x, x < dw →
        d[y * dw + x]? = src[(y * sh / dh) * sw + x * sw / dw]?)) dh _ d0
  · exact ⟨rfl, fun y hy => absurd hy (Nat.not_lt_zero y)⟩
  · intro y d hy ⟨hlen, hrows⟩
    obtain ⟨d', hrun, hlen', hrow, hbefore⟩ := resizeRow_ofNat src d sw sh dw dh y hy hsw hsh
      hhs hws hss hdd (by rw [hlen]; exact hd) hsrc
    refine ⟨d', hrun, by rw [hlen', hlen], ?_⟩
    intro y' hy' x hx
    by_cases he : y' = y
    · subst he
      exact hrow x hx
    · have hlt : y' < y := by omega
      have hi : y' * dw + x < y * dw := by
        have h1 : (y' + 1) * dw ≤ y * dw := Nat.mul_le_mul_right dw hlt
        have h2 : (y' + 1) * dw = y' * dw + dw := by ring
        omega
      rw [hbefore _ hi]
      exact hrows y' hlt x hx

/-! ## Claims about `resizeImageNative` -/

/-- With both bitmaps readable and lockable, a format other than RGBA_8888 on
either side skips the loop: the destination is left alone and the call
answers `JNI_TRUE`. -/
theorem resize_skips_unsupported (src dst : Bitmap)
    (hsi : src.getInfoResult = ANDROID_BITMAP_RESULT_SUCCESS)
    (hdi : dst.getInfoResult = ANDROID_BITMAP_RESULT_SUCCESS)
    (hsl : src.lockPixelsResult = ANDROID_BITMAP_RESULT_SUCCESS)
    (hdl : dst.lockPixelsResult = ANDROID_BITMAP_RESULT_SUCCESS)
    (hf : src.info.format ≠ ANDROID_BITMAP_FORMAT_RGBA_8888 ∨
      dst.info.format ≠ ANDROID_BITMAP_FORMAT_RGBA_8888) :
    Java_com_nan_webwrapper_NativeHelper_resizeImageNative src dst
      = Except.ok (true, dst.pixels) := by
  unfold Java_com_nan_webwrapper_NativeHelper_resizeImageNative
  rw [if_neg (by simp [hsi]), if_neg (by simp [hdi]), if_neg (by simp [hsl]),
    if_neg (by simp [hdl])]
  simp only
  rw [if_neg]
  rintro ⟨h1, h2⟩
  rcases hf with h | h
  · exact h h1
  · exact h h2

/-- C13 fails on the code: for an RGB_565 source, and for an RGB_565
destination, with every info and lock call succeeding, the call leaves the
destination pixels alone and answers `JNI_TRUE`, not the failure boolean. -/
theorem resize_unsupported_format_returns_true :
    Java_com_nan_webwrapper_NativeHelper_resizeImageNative bitmap565 bitmap3x3
      = Except.ok (true, bitmap3x3.pixels) ∧
    Java_com_nan_webwrapper_NativeHelper_resizeImageNative bitmap2x2 bitmap565
      = Except.ok (true, bitmap565.pixels) :=
  ⟨resize_skips_unsupported bitmap565 bitmap3x3 rfl rfl rfl rfl (Or.inl (by decide)),
    resize_skips_unsupported bitmap2x2 bitmap565 rfl rfl rfl rfl (Or.inr (by decide))⟩

/-- C20: nearest-neighbour resize stays in bounds.  For RGBA_8888 bitmaps with
positive source dimensions, the four products of dimensions within `int`
range and pixel memories of at least `width * height` words, the call raises
no fault and answers `JNI_TRUE`; for every `x < dstW`, `y < dstH` the scaled
coordinates are below the source dimensions, the read and write indices are
below `srcW * srcH` and `dstW * dstH`, and the destination pixel at
`y * dstW + x` is the source pixel at `srcY * srcW + srcX`.  With equal
dimensions the destination is a copy of the source. -/
theorem resize_nearest_neighbour (src dst : Bitmap)
    (hsi : src.getInfoResult = ANDROID_BITMAP_RESULT_SUCCESS)
    (hdi : dst.getInfoResult = ANDROID_BITMAP_RESULT_SUCCESS)
    (hsl : src.lockPixelsResult = ANDROID_BITMAP_RESULT_SUCCESS)
    (hdl : dst.lockPixelsResult = ANDROID_BITMAP_RESULT_SUCCESS)
    (hsf : src.info.format = ANDROID_BITMAP_FORMAT_RGBA_8888)
    (hdf : dst.info.format = ANDROID_BITMAP_FORMAT_RGBA_8888)
    (hsw : 0 < src.info.width) (hsh : 0 < src.info.height)
    (hhs : dst.info.height * src.info.height < 2 ^ 31)
    (hws : dst.info.width * src.info.width < 2 ^ 31)
    (hss : src.info.width * src.info.height < 2 ^ 31)
    (hdd : dst.info.width * dst.info.height < 2 ^ 31)
    (hsrc : src.info.width * src.info.height ≤ src.pixels.length)
    (hdst : dst.info.width * dst.info.height ≤ dst.pixels.length) :
    ∃ out, Java_com_nan_webwrapper_NativeHelper_resizeImageNative src dst
        = Except.ok (true, out) ∧
      out.length = dst.pixels.length ∧
      IsNearestNeighbour src.info.width src.info.height dst.info.width dst.info.height
        src.pixels out ∧
      (src.info.width = dst.info.width → src.info.height = dst.info.height →
        ∀ i, i < src.info.width * src.info.height → out[i]? = src.pixels[i]?) := by
  have b1 : src.info.width < 2 ^ 31 :=
    Nat.lt_of_le_of_lt (Nat.le_mul_of_pos_right _ hsh) hss
  have b2 : src.info.height < 2 ^ 31 :=
    Nat.lt_of_le_of_lt (Nat.le_mul_of_pos_left _ hsw) hss
  have b3 : dst.info.width < 2 ^ 31 :=
    Nat.lt_of_le_of_lt (Nat.le_mul_of_pos_right _ hsw) hws
  have b4 : dst.info.height < 2 ^ 31 :=
    Nat.lt_of_le_of_lt (Nat.le_mul_of_pos_right _ hsh) hhs
  obtain ⟨out, hrun, hlen, hpix⟩ := resizeLoop src.pixels dst.pixels src.info.width
    src.info.height dst.info.width dst.info.height hsw hsh hhs hws hss hdd hdst hsrc
  have hnn : IsNearestNeighbour src.info.width src.info.height dst.info.width dst.info.height
      src.pixels out := by
    intro x y hx hy
    have hX := scale_lt x src.info.width dst.info.width hx hsw
    have hY := scale_lt y src.info.height dst.info.height hy hsh
    exact ⟨hX, hY, index_lt _ _ _ _ hX hY, index_lt x y _ _ hx hy, hpix y hy x hx⟩
  refine ⟨out, ?_, hlen, hnn, ?_⟩
  · unfold Java_com_nan_webwrapper_NativeHelper_resizeImageNative
    rw [if_neg (by simp [hsi]), if_neg (by simp [hdi]), if_neg (by simp [hsl]),
      if_neg (by simp [hdl])]
    simp only
    rw [if_pos ⟨hsf, hdf⟩, toInt_of_lt _ b1, toInt_of_lt _ b2, toInt_of_lt _ b3,
      toInt_of_lt _ b4, hrun, bind_ok]
  · intro hw hh i hi
    have hy : i / src.info.width < src.info.height := by
      rw [Nat.div_lt_iff_lt_mul hsw, Nat.mul_comm]
      exact hi
    have hx : i % src.info.width < src.info.width := Nat.mod_lt i hsw
    have h := hpix (i / src.info.width) (hh ▸ hy) (i % src.info.width) (hw ▸ hx)
    rw [← hw, ← hh, Nat.mul_div_cancel _ hsh, Nat.mul_div_cancel _ hsw,
      Nat.mul_comm, Nat.div_add_mod] at h
    exact h

/-- C20, at a 2 × 2 source scaled up to a 3 × 3 destination. -/
theorem resize_nearest_neighbour_witness :
    ∃ out, Java_com_nan_webwrapper_NativeHelper_resizeImageNative bitmap2x2 bitmap3x3
        = Except.ok (true, out) ∧
      out.length = bitmap3x3.pixels.length ∧
      IsNearestNeighbour bitmap2x2.info.width bitmap2x2.info.height bitmap3x3.info.width
        bitmap3x3.info.height bitmap2x2.pixels out ∧
      (bitmap2x2.info.width = bitmap3x3.info.width →
        bitmap2x2.info.height = bitmap3x3.info.height →
        ∀ i, i < bitmap2x2.info.width * bitmap2x2.info.height →
          out[i]? = bitmap2x2.pixels[i]?) :=
  resize_nearest_neighbour bitmap2x2 bitmap3x3 rfl rfl rfl rfl rfl rfl (by decide) (by decide)
    (by decide) (by decide) (by decide) (by decide) (by decide) (by decide)

end WebWrapper
